import Mathlib

/-!
Verification of the Connect-4 engine (bit-encoded board, negamax search with
alpha-beta pruning and a transposition table).

The board representation and all operations are shallowly embedded from
`src/board.rs`, `src/player.rs` and `src/player/ai.rs`.  Machine integers
(`u64` bitboards, `i32` scores) are modelled as `Nat` / `Int`; all bitboard
values handled by the program stay below `2 ^ 49`, so `Nat` bit operations
agree with `u64` ones, and `i32` saturating arithmetic is modelled explicitly
by clamping to the `i32` range.  The Rust `HashMap` transposition table is
modelled as an association list in which the most recent insertion is found
first (the observable map behaviour of `HashMap::insert` / `get`).
In-place mutation (`make_move` / `undo_move`, the `PeekableBoard` guard) is
modelled by explicit state passing: `make_move` returns the updated board and
the caller keeps the previous one, which is equivalent because a
`PeekableBoard` drop always undoes the move it applied.
-/

namespace C4

/-- Token of a player, from `src/player.rs`. -/
inductive Token where
  | Player1 : Token
  | Player2 : Token
deriving DecidableEq, Repr

/-- Modelled from the spec: `Token::opponent` is used by `src/player/ai.rs`
(`token.opponent()`, `side.opponent()`) but its definition is not part of the
sources; the spec describes it as flipping the perspective to the other player
("perspective flipped to the opponent", "run negamax from the opponent's
perspective"). -/
def Token.opponent : Token → Token
  | Token.Player1 => Token.Player2
  | Token.Player2 => Token.Player1

/-- `WIDTH` from `src/board.rs`. -/
def WIDTH : Nat := 7

/-- `HEIGHT` from `src/board.rs`. -/
def HEIGHT : Nat := 6

/-- `BOARD_SIZE` from `src/board.rs`. -/
def BOARD_SIZE : Nat := WIDTH * HEIGHT

/-- `BOTTOM` from `src/board.rs`: one bit at the base of each column. -/
def BOTTOM : Nat := ((1 <<< ((HEIGHT + 1) * WIDTH)) - 1) / ((1 <<< (HEIGHT + 1)) - 1)

/-- `TOP` from `src/board.rs`: the guard row above each column. -/
def TOP : Nat := BOTTOM <<< HEIGHT

/-- The `Board` struct from `src/board.rs`.  `players` is the two-element
array of bitboards, modelled as a pair. -/
structure Board where
  moves : List Nat
  heights : List Nat
  players : Nat × Nat
  ply : Nat
deriving DecidableEq, Repr

/-- Indexing `players[i]` for `i = ply & 1`. -/
def playersGet (ps : Nat × Nat) (i : Nat) : Nat :=
  if i = 0 then ps.1 else ps.2

/-- Writing `players[i]` for `i = ply & 1`. -/
def playersSet (ps : Nat × Nat) (i : Nat) (v : Nat) : Nat × Nat :=
  if i = 0 then (v, ps.2) else (ps.1, v)

/-- `Board::new` from `src/board.rs`. -/
def Board.new : Board where
  moves := List.replicate BOARD_SIZE 0
  heights := (List.range WIDTH).map (fun i => (HEIGHT + 1) * i)
  players := (0, 0)
  ply := 0

/-- `Board::current_player` from `src/board.rs`. -/
def Board.current_player (b : Board) : Token :=
  if b.ply % 2 = 0 then Token.Player1 else Token.Player2

/-- `Board::token_at` from `src/board.rs`. -/
def Board.token_at (b : Board) (row column : Nat) : Option Token :=
  let mask := 1 <<< (row + column * (HEIGHT + 1))
  if b.players.1 &&& mask ≠ 0 then some Token.Player1
  else if b.players.2 &&& mask ≠ 0 then some Token.Player2
  else none

/-- `Board::is_legal_board` from `src/board.rs`. -/
def is_legal_board (board : Nat) : Bool :=
  board &&& TOP = 0

/-- `Board::has_space` from `src/board.rs` (the `column < WIDTH` assertion is
a caller obligation and appears as a hypothesis of the theorems). -/
def Board.has_space (b : Board) (column : Nat) : Bool :=
  is_legal_board (playersGet b.players (b.ply % 2) ||| (1 <<< b.heights.getD column 0))

/-- `Board::is_legal` from `src/board.rs`. -/
def Board.is_legal (b : Board) (column : Nat) : Bool :=
  decide (column < WIDTH) && b.has_space column

/-- `Board::make_move` from `src/board.rs` (state-passing form; the
`has_space` assertion is a caller obligation). -/
def Board.make_move (b : Board) (column : Nat) : Board :=
  let h := b.heights.getD column 0
  { moves := b.moves.set b.ply column
    heights := b.heights.set column (h + 1)
    players := playersSet b.players (b.ply % 2)
      (playersGet b.players (b.ply % 2) ^^^ (1 <<< h))
    ply := b.ply + 1 }

/-- `Board::undo_move` from `src/board.rs` (state-passing form). -/
def Board.undo_move (b : Board) : Board :=
  let ply := b.ply - 1
  let column := b.moves.getD ply 0
  let h := b.heights.getD column 0 - 1
  { moves := b.moves
    heights := b.heights.set column h
    players := playersSet b.players (ply % 2)
      (playersGet b.players (ply % 2) ^^^ (1 <<< h))
    ply := ply }

/-- `Board::is_win` from `src/board.rs`. -/
def is_win (board : Nat) : Bool :=
  let h := board &&& (board >>> (HEIGHT + 1))
  let v := board &&& (board >>> 1)
  let d1 := board &&& (board >>> HEIGHT)
  let d2 := board &&& (board >>> (HEIGHT + 2))
  let h2 := h &&& (h >>> (2 * (HEIGHT + 1)))
  let v2 := v &&& (v >>> 2)
  let d12 := d1 &&& (d1 >>> (2 * HEIGHT))
  let d22 := d2 &&& (d2 >>> (2 * (HEIGHT + 2)))
  (h2 ||| v2 ||| d12 ||| d22) ≠ 0

/-- `Board::winner` from `src/board.rs`. -/
def Board.winner (b : Board) : Option Token :=
  if is_win b.players.1 then some Token.Player1
  else if is_win b.players.2 then some Token.Player2
  else none

/-- The `LegalMoves` iterator from `src/board.rs`, unrolled: `next` scans
columns upward from `column` while `column < WIDTH`, yielding each column
whose next free slot keeps the board legal.  `pboard` is the captured
`players[ply & 1]` bitboard.  The `fuel` argument makes the recursion
structural; the scan is always started with `fuel = WIDTH` and `column = 0`,
and the loop advances `column` by one per step, so fuel never runs out before
the `column < WIDTH` test fails. -/
def legalMovesFrom (pboard : Nat) (heights : List Nat) : Nat → Nat → List Nat
  | 0, _ => []
  | fuel + 1, column =>
    if column < WIDTH then
      if is_legal_board (pboard ||| (1 <<< heights.getD column 0)) then
        column :: legalMovesFrom pboard heights fuel (column + 1)
      else
        legalMovesFrom pboard heights fuel (column + 1)
    else
      []

/-- `Board::legal_moves` from `src/board.rs`: the iterator is created with
the current player's bitboard, the heights array and `column = 0`. -/
def Board.legal_moves (b : Board) : List Nat :=
  legalMovesFrom (playersGet b.players (b.ply % 2)) b.heights WIDTH 0

/-- `Board::position_code` from `src/board.rs`. -/
def Board.position_code (b : Board) : Nat :=
  playersGet b.players (b.ply % 2) + b.players.1 + b.players.2 + BOTTOM

end C4

namespace C4

/-- `Score` is Rust `i32`; modelled as `Int` with explicit saturation. -/
def Score := Int
deriving instance DecidableEq, LinearOrder, Repr for Score

/-- `i32::MIN`. -/
def I32_MIN : Int := -2147483648

/-- `i32::MAX`. -/
def I32_MAX : Int := 2147483647

/-- Clamp to the `i32` range. -/
def i32clamp (x : Int) : Int := max I32_MIN (min I32_MAX x)

/-- `i32::saturating_neg`. -/
def satNeg (x : Int) : Int := i32clamp (-x)

/-- `i32::saturating_sub`. -/
def satSub (x y : Int) : Int := i32clamp (x - y)

/-- `Difficulty` from `src/player/ai.rs`. -/
inductive Difficulty where
  | Easy : Difficulty
  | Medium : Difficulty
  | Hard : Difficulty
  | Master : Difficulty
  | Unfair : Difficulty
deriving DecidableEq, Repr

/-- The discriminant values of `Difficulty` (`Easy = 3`, ..., `Unfair = 11`). -/
def Difficulty.val : Difficulty → Nat
  | Difficulty.Easy => 3
  | Difficulty.Medium => 5
  | Difficulty.Hard => 7
  | Difficulty.Master => 9
  | Difficulty.Unfair => 11

/-- `TTFlag` from `src/player/ai.rs`. -/
inductive TTFlag where
  | Exact : TTFlag
  | Lowerbound : TTFlag
  | Upperbound : TTFlag
deriving DecidableEq, Repr

/-- `TTEntry` from `src/player/ai.rs`. -/
structure TTEntry where
  depth : Nat
  value : Int
  flag : TTFlag
deriving DecidableEq, Repr

/-- The transposition table `TTable = HashMap<BitBoard, TTEntry>`, modelled as
an association list where the most recent insertion shadows older ones. -/
abbrev TTable := List (Nat × TTEntry)

/-- `HashMap::get`. -/
def ttGet (tt : TTable) (k : Nat) : Option TTEntry :=
  match tt with
  | [] => none
  | p :: rest => if p.1 = k then some p.2 else ttGet rest k

/-- `HashMap::insert` (overwrite semantics via shadowing). -/
def ttInsert (tt : TTable) (k : Nat) (e : TTEntry) : TTable :=
  (k, e) :: tt

/-- The body of the unbounded scan loop of `get_length` in `src/player/ai.rs`.
Starting one step from `(row, column)` in direction `(di, dj)` it tallies
`(current, possible)`: `current` counts contiguous `side` tokens, `possible`
counts cells (empty or `side`) until the first opposing token or the board
edge.  The Rust loop always leaves the 6-by-7 grid within at most 7 steps
(each step moves one row and/or one column); `fuel = 16` strictly exceeds
that, so the fuel-exhaustion branch is unreachable and the recursion is an
exact model of the loop. -/
def getLengthAux (b : Board) (side : Token) (di dj : Int) :
    Nat → Int → Int → Nat × Nat
  | 0, _, _ => (0, 0)
  | fuel + 1, row, column =>
    let row' := row + di
    let column' := column + dj
    if 0 ≤ row' ∧ row' < (HEIGHT : Int) ∧ 0 ≤ column' ∧ column' < (WIDTH : Int) then
      match b.token_at row'.toNat column'.toNat with
      | some t =>
        if t = side then
          let r := getLengthAux b side di dj fuel row' column'
          (r.1 + 1, r.2 + 1)
        else
          (0, 0)
      | none =>
        let r := getLengthAux b side di dj fuel row' column'
        (r.1, r.2 + 1)
    else
      (0, 0)

/-- `get_length` from `src/player/ai.rs`. -/
def get_length (b : Board) (pos : Nat × Nat) (dir : Int × Int) (side : Token) :
    Nat × Nat :=
  getLengthAux b side dir.1 dir.2 16 (pos.1 : Int) (pos.2 : Int)

/-- The `DIRECTION` constant from `heuristic_value` (pairs are
`(row delta, column delta)`). -/
def DIRECTION : List (Int × Int) := [(1, 0), (1, 1), (0, 1), (-1, 1)]

/-- The per-direction accumulation step inside `heuristic_value`. -/
def dirStep (b : Board) (side : Token) (row column : Nat) (token : Token)
    (acc : Int) (d : Int × Int) : Int :=
  let f := get_length b (row, column) d token
  let bk := get_length b (row, column) (-d.1, -d.2) token
  let current_len := f.1 + bk.1 + 1
  let possible_len := f.2 + bk.2 + 1
  if 4 ≤ possible_len then
    let score := 10 * (current_len : Int)
    if side = token then acc + score else acc - score
  else
    acc

/-- `heuristic_value` from `src/player/ai.rs`: win/draw overrides, then the
column/row scan accumulating `total_score`. -/
def heuristic_value (b : Board) (side : Token) (winner : Option Token)
    (is_full : Bool) : Int :=
  match winner with
  | some w => if w = side then 10000 else -10000
  | none =>
    if is_full then 0
    else
      (List.range WIDTH).foldl (fun acc column =>
        (List.range HEIGHT).foldl (fun acc row =>
          match b.token_at row column with
          | some token => DIRECTION.foldl (dirStep b side row column token) acc
          | none => acc) acc) 0

/-- The heuristic as negamax invokes it: `heuristic_value(&board, side,
winner, is_full)` with `winner = board.winner()` and
`is_full = legal_moves.peek().is_none()`. -/
def hval (b : Board) (side : Token) : Int :=
  heuristic_value b side b.winner b.legal_moves.isEmpty

/-- The child loop of `negamax` (`for column in legal_moves { ... }`): `nm`
is the recursive search at the next depth; state `(value, a)` accumulates the
fail-soft maximum and the raised alpha, breaking on `a >= b`.  Returns the
final `value` together with the threaded table. -/
def nmLoop (nm : TTable → Board → Int → Int → Token → Int × TTable)
    (b : Board) (side : Token) (bb : Int) :
    List Nat → TTable → Int → Int → Int × TTable
  | [], tt, value, _ => (value, tt)
  | c :: rest, tt, value, a =>
    let r := nm tt (b.make_move c) (satNeg bb) (satNeg a) side.opponent
    let value' := max value (satNeg r.1)
    let a' := max a value'
    if bb ≤ a' then (value', r.2) else nmLoop nm b side bb rest r.2 value' a'

/-- The part of `negamax` after the transposition-table probe: terminal /
depth-exhausted check, child loop, store, with `a_orig` the alpha recorded on
entry and `(a, bb)` the (possibly table-tightened) window.  `prev` is the
search at the next lower depth. -/
def nmMain (prev : TTable → Board → Int → Int → Token → Int × TTable)
    (depth : Nat) (tt : TTable) (b : Board) (a_orig a bb : Int) (side : Token) :
    Int × TTable :=
  match depth with
  | 0 => (hval b side, tt)
  | _ + 1 =>
    if b.winner.isSome || b.legal_moves.isEmpty then
      (hval b side, tt)
    else
      let r := nmLoop prev b side bb b.legal_moves tt I32_MIN a
      let flag := if r.1 ≤ a_orig then TTFlag.Upperbound
        else if bb ≤ r.1 then TTFlag.Lowerbound
        else TTFlag.Exact
      (r.1, ttInsert r.2 b.position_code ⟨depth, r.1, flag⟩)

/-- `negamax` from `src/player/ai.rs` (structural recursion on `depth`; the
recursive call in the Rust code uses `depth.saturating_sub(1)` and is reached
only when `depth ≠ 0`, so the child search is the search at `depth - 1`).
The table probe replays the lookup policy: an entry of sufficient depth
returns immediately when `Exact`, otherwise tightens the window and returns
its value on an `a >= b` cutoff; then `nmMain` runs with the adjusted window. -/
def negamax : Nat → TTable → Board → Int → Int → Token → Int × TTable
  | 0, tt, b, a, bb, side =>
    match ttGet tt b.position_code with
    | some e =>
      if e.depth ≥ 0 then
        match e.flag with
        | TTFlag.Exact => (e.value, tt)
        | TTFlag.Lowerbound =>
          let a' := max a e.value
          if a' ≥ bb then (e.value, tt)
          else nmMain (fun tt' _ _ _ _ => (0, tt')) 0 tt b a a' bb side
        | TTFlag.Upperbound =>
          let bb' := min bb e.value
          if a ≥ bb' then (e.value, tt)
          else nmMain (fun tt' _ _ _ _ => (0, tt')) 0 tt b a a bb' side
      else nmMain (fun tt' _ _ _ _ => (0, tt')) 0 tt b a a bb side
    | none => nmMain (fun tt' _ _ _ _ => (0, tt')) 0 tt b a a bb side
  | d + 1, tt, b, a, bb, side =>
    match ttGet tt b.position_code with
    | some e =>
      if e.depth ≥ d + 1 then
        match e.flag with
        | TTFlag.Exact => (e.value, tt)
        | TTFlag.Lowerbound =>
          let a' := max a e.value
          if a' ≥ bb then (e.value, tt)
          else nmMain (negamax d) (d + 1) tt b a a' bb side
        | TTFlag.Upperbound =>
          let bb' := min bb e.value
          if a ≥ bb' then (e.value, tt)
          else nmMain (negamax d) (d + 1) tt b a a bb' side
      else nmMain (negamax d) (d + 1) tt b a a bb side
    | none => nmMain (negamax d) (d + 1) tt b a a bb side

/-- `AIPlayer` from `src/player/ai.rs` (the `ThreadRng` is modelled by an
explicit `pick` argument to `decide_move`). -/
structure AIPlayer where
  depth : Nat
  ttable : TTable

/-- `AIPlayer::new`: `with_capacity` only pre-allocates, so the table starts
with no entries. -/
def AIPlayer.new (difficulty : Difficulty) : AIPlayer :=
  { depth := difficulty.val, ttable := [] }

/-- The root loop of `decide_move`: for each legal column, search the
position after the move and negate; track the best value, the list of
best-so-far columns (`best_moves[0..len]`), and the threaded table. -/
def decideLoop (depth : Nat) (board : Board) (token : Token) :
    List Nat → TTable → List Nat → Int → TTable × List Nat × Int
  | [], tt, best, vb => (tt, best, vb)
  | c :: rest, tt, best, vb =>
    let r := negamax depth tt (board.make_move c) I32_MIN I32_MAX token.opponent
    let value := satNeg r.1
    let diff := satSub vb value
    if diff = 0 then decideLoop depth board token rest r.2 (best ++ [c]) vb
    else if diff < 0 then decideLoop depth board token rest r.2 [c] value
    else decideLoop depth board token rest r.2 best vb

/-- `AIPlayer::decide_move` from `src/player/ai.rs`.  Returns the chosen
column (`none` models the `panic!("no legal moves")`) together with the
updated player state; `pick` stands for the random draw
`rng.gen_range(0, len)`, reduced modulo the number of tied best moves. -/
def AIPlayer.decide_move (p : AIPlayer) (board : Board) (token : Token)
    (pick : Nat) : Option Nat × AIPlayer :=
  let r := decideLoop p.depth board token board.legal_moves p.ttable [] I32_MIN
  let best := r.2.1
  match best with
  | [] => (none, { p with ttable := r.1 })
  | [c] => (some c, { p with ttable := r.1 })
  | _ => (some (best.getD (pick % best.length) 0), { p with ttable := r.1 })

/-- The unpruned, uncached, full-width minimax search, written from the
spec's words ("an unpruned, uncached full-width minimax search of the same
Position to the same depth", with the same terminal/heuristic evaluation and
the negamax identity value(A) = -value(B)).  This is the reference function
for the refinement claim C1. -/
def minimax : Nat → Board → Token → Int
  | 0, b, side => hval b side
  | d + 1, b, side =>
    if b.winner.isSome || b.legal_moves.isEmpty then hval b side
    else
      b.legal_moves.foldl
        (fun v c => max v (satNeg (minimax d (b.make_move c) side.opponent)))
        I32_MIN

end C4

namespace C4

/-! ### The legal-move scan as a filter over columns -/

theorem legalMovesFrom_eq (pboard : Nat) (heights : List Nat) :
    ∀ fuel column, column + fuel = WIDTH →
      legalMovesFrom pboard heights fuel column =
        (List.range' column fuel).filter
          (fun c => is_legal_board (pboard ||| (1 <<< heights.getD c 0))) := by
  intro fuel
  induction fuel with
  | zero => intro column h; rfl
  | succ n ih =>
    intro column h
    have hcol : column < WIDTH := by omega
    rw [legalMovesFrom, if_pos hcol, List.range'_succ column n 1, List.filter_cons,
      ih (column + 1) (by omega)]

/-- `legal_moves` is exactly the in-order filter of the columns by
`has_space`. -/
theorem legal_moves_eq_filter (b : Board) :
    b.legal_moves = (List.range WIDTH).filter (fun c => b.has_space c) := by
  rw [Board.legal_moves, legalMovesFrom_eq _ _ WIDTH 0 rfl, List.range_eq_range']
  rfl

theorem mem_legal_moves (b : Board) (c : Nat) :
    c ∈ b.legal_moves ↔ c < WIDTH ∧ b.has_space c = true := by
  rw [legal_moves_eq_filter, List.mem_filter, List.mem_range]

theorem legal_moves_sorted (b : Board) : List.Pairwise (· < ·) b.legal_moves := by
  rw [legal_moves_eq_filter]
  exact List.Pairwise.filter _ (List.pairwise_lt_range WIDTH)

theorem legal_moves_length_le (b : Board) : b.legal_moves.length ≤ WIDTH := by
  rw [legal_moves_eq_filter]
  calc ((List.range WIDTH).filter _).length ≤ (List.range WIDTH).length :=
        List.length_filter_le _ _
    _ = WIDTH := List.length_range WIDTH

end C4

namespace C4

/-! ### Bit-level facts about the board encoding -/

theorem one_shiftLeft (n : Nat) : 1 <<< n = 2 ^ n := by
  rw [Nat.shiftLeft_eq, Nat.one_mul]

theorem testBit_false_of_lt (x n k : Nat) (hx : x < 2 ^ n) (hk : n ≤ k) :
    x.testBit k = false :=
  Nat.testBit_lt_two_pow (lt_of_lt_of_le hx (Nat.pow_le_pow_right (by omega) hk))

theorem testBit_BOTTOM (k : Nat) :
    BOTTOM.testBit k = decide (k < 49 ∧ k % 7 = 0) := by
  by_cases hk : k < 49
  · revert hk
    revert k
    decide
  · rw [testBit_false_of_lt BOTTOM 49 k (by decide) (by omega)]
    simp
    omega

theorem testBit_TOP (k : Nat) :
    TOP.testBit k = decide (k < 49 ∧ k % 7 = 6) := by
  by_cases hk : k < 49
  · revert hk
    revert k
    decide
  · rw [testBit_false_of_lt TOP 49 k (by decide) (by omega)]
    simp
    omega

theorem land_eq_zero_iff {x y : Nat} :
    x &&& y = 0 ↔ ∀ i, ¬(x.testBit i = true ∧ y.testBit i = true) := by
  constructor
  · intro h i hi
    have : (x &&& y).testBit i = true := by
      rw [Nat.testBit_and, hi.1, hi.2]; rfl
    rw [h, Nat.zero_testBit] at this
    exact Bool.false_ne_true this
  · intro h
    apply Nat.eq_of_testBit_eq
    intro i
    rw [Nat.testBit_and, Nat.zero_testBit]
    cases hx : x.testBit i with
    | false => rfl
    | true =>
      cases hy : y.testBit i with
      | false => rfl
      | true => exact absurd ⟨hx, hy⟩ (h i)

theorem lt_two_pow_of_testBit_false {x n : Nat}
    (h : ∀ k, n ≤ k → x.testBit k = false) : x < 2 ^ n := by
  have : x = x % 2 ^ n := by
    apply Nat.eq_of_testBit_eq
    intro i
    rw [Nat.testBit_mod_two_pow]
    by_cases hi : i < n
    · simp [hi]
    · rw [h i (by omega)]
      simp
  rw [this]
  exact Nat.mod_lt _ (Nat.pos_pow_of_pos n (by omega))

/-! ### The reachable-state invariant -/

/-- The union of the two players' bitboards (all occupied cells). -/
def occAll (b : Board) : Nat := b.players.1 ||| b.players.2

/-- The structural invariant of reachable boards: array lengths, per-column
height ranges, occupancy below each column's height, no occupancy outside the
49 board-plus-guard bits, disjoint player sets, and `ply` equal to the total
number of tokens. -/
structure BoardInv (b : Board) : Prop where
  hlen : b.heights.length = 7
  mlen : b.moves.length = 42
  hlo : ∀ c, c < 7 → 7 * c ≤ b.heights.getD c 0
  hhi : ∀ c, c < 7 → b.heights.getD c 0 ≤ 7 * c + 6
  occ : ∀ c, c < 7 → ∀ j, j < 7 →
    (occAll b).testBit (7 * c + j) = decide (7 * c + j < b.heights.getD c 0)
  ubound : occAll b < 2 ^ 49
  disj : b.players.1 &&& b.players.2 = 0
  plysum : b.ply = ∑ c ∈ Finset.range 7, (b.heights.getD c 0 - 7 * c)

/-- Positions reachable from the empty board by legal moves and paired
undos. -/
inductive Reachable : Board → Prop where
  | base : Reachable Board.new
  | step {b : Board} {c : Nat} : Reachable b → c < WIDTH → b.has_space c = true →
      Reachable (b.make_move c)
  | undo {b : Board} {c : Nat} : Reachable b → c < WIDTH → b.has_space c = true →
      Reachable ((b.make_move c).undo_move)

theorem boardInv_new : BoardInv Board.new := by
  refine ⟨by decide, by decide, ?_, ?_, ?_, by decide, by decide, ?_⟩
  · intro c hc
    interval_cases c <;> decide
  · intro c hc
    interval_cases c <;> decide
  · intro c hc j hj
    interval_cases c <;> interval_cases j <;> decide
  · decide

end C4

namespace C4

theorem playersSet_playersGet (ps : Nat × Nat) (i : Nat) :
    playersSet ps i (playersGet ps i) = ps := by
  unfold playersSet playersGet
  split <;> rfl

theorem playersSet_set (ps : Nat × Nat) (i v w : Nat) :
    playersSet (playersSet ps i v) i w = playersSet ps i w := by
  unfold playersSet
  split <;> rfl

theorem playersGet_set_self (ps : Nat × Nat) (i v : Nat) :
    playersGet (playersSet ps i v) i = v := by
  unfold playersSet playersGet
  split <;> rfl

theorem players_testBit_imp (b : Board) (k i : Nat)
    (h : (playersGet b.players k).testBit i = true) :
    (occAll b).testBit i = true := by
  unfold playersGet at h
  rw [occAll, Nat.testBit_or]
  split at h <;> simp [h]

theorem occ_testBit_iff {b : Board} (hb : BoardInv b) (i : Nat) :
    (occAll b).testBit i = decide (i < 49 ∧ i < b.heights.getD (i / 7) 0) := by
  by_cases hi : i < 49
  · have hc : i / 7 < 7 := by omega
    have hj : i % 7 < 7 := by
      exact Nat.mod_lt _ (by omega)
    have ho := hb.occ (i / 7) hc (i % 7) hj
    rw [Nat.div_add_mod i 7] at ho
    rw [ho]
    simp [hi]
  · rw [testBit_false_of_lt _ 49 _ hb.ubound (by omega)]
    simp
    omega

theorem occ_bit_at_height {b : Board} (hb : BoardInv b) {c : Nat} (hc : c < 7) :
    (occAll b).testBit (b.heights.getD c 0) = false := by
  have h1 := hb.hlo c hc
  have h2 := hb.hhi c hc
  rw [occ_testBit_iff hb]
  have hdiv : b.heights.getD c 0 / 7 = c := by omega
  rw [hdiv]
  simp

theorem player_bit_at_height {b : Board} (hb : BoardInv b) {c : Nat} (hc : c < 7)
    (k : Nat) : (playersGet b.players k).testBit (b.heights.getD c 0) = false := by
  cases hp : (playersGet b.players k).testBit (b.heights.getD c 0) with
  | false => rfl
  | true =>
    have := players_testBit_imp b k _ hp
    rw [occ_bit_at_height hb hc] at this
    exact absurd this (by simp)

theorem testBit_two_pow_iff (n m : Nat) : (2 ^ n).testBit m = decide (n = m) := by
  by_cases h : n = m
  · subst h
    simp [Nat.testBit_two_pow_self]
  · simp [Nat.testBit_two_pow_of_ne h, h]

theorem occ_bit_mod {b : Board} (hb : BoardInv b) (i : Nat)
    (h : (occAll b).testBit i = true) : i % 7 < 6 := by
  rw [occ_testBit_iff hb] at h
  rw [decide_eq_true_iff] at h
  have hc : i / 7 < 7 := by omega
  have h2 := hb.hhi (i / 7) hc
  omega

theorem has_space_iff {b : Board} (hb : BoardInv b) {c : Nat} (hc : c < 7) :
    b.has_space c = true ↔ b.heights.getD c 0 < 7 * c + 6 := by
  have h1 := hb.hlo c hc
  have h2 := hb.hhi c hc
  rw [Board.has_space, is_legal_board, one_shiftLeft, decide_eq_true_iff]
  constructor
  · intro h
    rcases Nat.lt_or_ge (b.heights.getD c 0) (7 * c + 6) with hlt | hge
    · exact hlt
    · exfalso
      have heq : b.heights.getD c 0 = 7 * c + 6 := by omega
      rw [land_eq_zero_iff] at h
      apply h (7 * c + 6)
      constructor
      · rw [Nat.testBit_or, ← heq, Nat.testBit_two_pow_self, Bool.or_true]
      · rw [testBit_TOP, decide_eq_true_iff]
        omega
  · intro h
    rw [land_eq_zero_iff]
    intro i ⟨hbit, htop⟩
    rw [testBit_TOP, decide_eq_true_iff] at htop
    rw [Nat.testBit_or, Bool.or_eq_true] at hbit
    rcases hbit with hp | hpow
    · have := occ_bit_mod hb i (players_testBit_imp b _ i hp)
      omega
    · rw [testBit_two_pow_iff, decide_eq_true_iff] at hpow
      omega

end C4

namespace C4

theorem getD_set_self (l : List Nat) (i v : Nat) (h : i < l.length) :
    (l.set i v).getD i 0 = v := by
  rw [List.getD_eq_getElem?_getD, List.getElem?_set_self h]
  rfl

theorem getD_set_ne (l : List Nat) (i j v : Nat) (h : i ≠ j) :
    (l.set i v).getD j 0 = l.getD j 0 := by
  rw [List.getD_eq_getElem?_getD, List.getElem?_set_ne h, ← List.getD_eq_getElem?_getD]

theorem set_getD_self (l : List Nat) (i : Nat) (h : i < l.length) :
    l.set i (l.getD i 0) = l := by
  apply List.ext_getElem?
  intro j
  by_cases hij : i = j
  · subst hij
    rw [List.getElem?_set_self h, List.getD_eq_getElem?_getD]
    cases hj : l[i]? with
    | none => rw [List.getElem?_eq_none_iff] at hj; omega
    | some v => rfl
  · rw [List.getElem?_set_ne hij]

theorem make_move_heights (b : Board) (c : Nat) :
    (b.make_move c).heights = b.heights.set c (b.heights.getD c 0 + 1) := rfl

theorem make_move_ply (b : Board) (c : Nat) : (b.make_move c).ply = b.ply + 1 := rfl

theorem make_move_moves (b : Board) (c : Nat) :
    (b.make_move c).moves = b.moves.set b.ply c := rfl

theorem make_move_players (b : Board) (c : Nat) :
    (b.make_move c).players = playersSet b.players (b.ply % 2)
      (playersGet b.players (b.ply % 2) ^^^ (1 <<< b.heights.getD c 0)) := rfl

theorem occAll_make {b : Board} (hb : BoardInv b) {c : Nat} (hc : c < 7) :
    occAll (b.make_move c) = occAll b ^^^ (2 ^ b.heights.getD c 0) := by
  apply Nat.eq_of_testBit_eq
  intro i
  rw [Nat.testBit_xor]
  rw [occAll, make_move_players, one_shiftLeft]
  rcases Nat.mod_two_eq_zero_or_one b.ply with hp | hp <;>
    rw [hp] <;>
    unfold playersSet playersGet <;>
    simp only [if_pos rfl, reduceIte, one_ne_zero] <;>
    rw [occAll] <;>
    by_cases hi : i = b.heights.getD c 0
  · subst hi
    rw [Nat.testBit_or, Nat.testBit_xor, Nat.testBit_two_pow_self]
    have h1 := player_bit_at_height hb hc 0
    have h2 := player_bit_at_height hb hc 1
    unfold playersGet at h1 h2
    simp only [if_pos rfl, reduceIte, one_ne_zero] at h1 h2
    rw [Nat.testBit_or, h1, h2]
    rfl
  · have hpow : (2 ^ b.heights.getD c 0).testBit i = false := by
      rw [testBit_two_pow_iff, decide_eq_false_iff_not]
      omega
    rw [Nat.testBit_or, Nat.testBit_xor, hpow, Nat.testBit_or]
    simp
  · subst hi
    rw [Nat.testBit_or, Nat.testBit_xor, Nat.testBit_two_pow_self]
    have h1 := player_bit_at_height hb hc 0
    have h2 := player_bit_at_height hb hc 1
    unfold playersGet at h1 h2
    simp only [if_pos rfl, reduceIte, one_ne_zero] at h1 h2
    rw [Nat.testBit_or, h1, h2]
    rfl
  · have hpow : (2 ^ b.heights.getD c 0).testBit i = false := by
      rw [testBit_two_pow_iff, decide_eq_false_iff_not]
      omega
    rw [Nat.testBit_or, Nat.testBit_xor, hpow, Nat.testBit_or]
    simp

end C4

namespace C4

theorem disj_make {b : Board} (hb : BoardInv b) {c : Nat} (hc : c < 7) :
    (b.make_move c).players.1 &&& (b.make_move c).players.2 = 0 := by
  have hd := hb.disj
  rw [land_eq_zero_iff] at hd
  rw [make_move_players, one_shiftLeft, land_eq_zero_iff]
  intro i ⟨h1, h2⟩
  rcases Nat.mod_two_eq_zero_or_one b.ply with hp | hp <;> rw [hp] at h1 h2 <;>
    unfold playersSet playersGet at h1 h2 <;>
    simp only [if_pos rfl, reduceIte, one_ne_zero] at h1 h2
  · by_cases hi : i = b.heights.getD c 0
    · subst hi
      have := player_bit_at_height hb hc 1
      unfold playersGet at this
      simp only [reduceIte, one_ne_zero] at this
      exact absurd h2 (by rw [this]; simp)
    · rw [Nat.testBit_xor, testBit_two_pow_iff,
        decide_eq_false_iff_not.mpr (fun hgl => hi hgl.symm), Bool.xor_false] at h1
      exact hd i ⟨h1, h2⟩
  · by_cases hi : i = b.heights.getD c 0
    · subst hi
      have := player_bit_at_height hb hc 0
      unfold playersGet at this
      simp only [reduceIte] at this
      exact absurd h1 (by rw [this]; simp)
    · rw [Nat.testBit_xor, testBit_two_pow_iff,
        decide_eq_false_iff_not.mpr (fun hgl => hi hgl.symm), Bool.xor_false] at h2
      exact hd i ⟨h1, h2⟩

theorem ply_lt_of_has_space {b : Board} (hb : BoardInv b) {c : Nat} (hc : c < 7)
    (hs : b.has_space c = true) : b.ply < 42 := by
  have hh := (has_space_iff hb hc).mp hs
  have hlo := hb.hlo c hc
  rw [hb.plysum]
  have hmem : c ∈ Finset.range 7 := Finset.mem_range.mpr hc
  rw [← Finset.add_sum_erase _ _ hmem]
  have hbd : ∑ x ∈ (Finset.range 7).erase c, (b.heights.getD x 0 - 7 * x) ≤ 36 := by
    have hcard : ((Finset.range 7).erase c).card = 6 := by
      rw [Finset.card_erase_of_mem hmem, Finset.card_range]
    calc ∑ x ∈ (Finset.range 7).erase c, (b.heights.getD x 0 - 7 * x)
        ≤ ((Finset.range 7).erase c).card * 6 := by
          apply Finset.sum_le_card_nsmul
          intro x hx
          have hx7 : x < 7 := Finset.mem_range.mp (Finset.mem_of_mem_erase hx)
          have := hb.hhi x hx7
          omega
      _ = 36 := by rw [hcard]
  omega

theorem boardInv_make {b : Board} (hb : BoardInv b) {c : Nat} (hc : c < 7)
    (hs : b.has_space c = true) : BoardInv (b.make_move c) := by
  have hh := (has_space_iff hb hc).mp hs
  have hlo := hb.hlo c hc
  have hply : b.ply < 42 := ply_lt_of_has_space hb hc hs
  refine ⟨?_, ?_, ?_, ?_, ?_, ?_, disj_make hb hc, ?_⟩
  · rw [make_move_heights, List.length_set, hb.hlen]
  · rw [make_move_moves, List.length_set, hb.mlen]
  · intro c' hc'
    rw [make_move_heights]
    by_cases he : c = c'
    · subst he
      rw [getD_set_self _ _ _ (by rw [hb.hlen]; omega)]
      omega
    · rw [getD_set_ne _ _ _ _ he]
      exact hb.hlo c' hc'
  · intro c' hc'
    rw [make_move_heights]
    by_cases he : c = c'
    · subst he
      rw [getD_set_self _ _ _ (by rw [hb.hlen]; omega)]
      omega
    · rw [getD_set_ne _ _ _ _ he]
      exact hb.hhi c' hc'
  · intro c' hc' j hj
    rw [occAll_make hb hc, Nat.testBit_xor, make_move_heights]
    rw [occ_testBit_iff hb]
    have hdiv : (7 * c' + j) / 7 = c' := by omega
    rw [hdiv]
    by_cases he : c = c'
    · subst he
      rw [getD_set_self _ _ _ (by rw [hb.hlen]; omega), testBit_two_pow_iff]
      have hhc := hb.hhi c hc
      by_cases hij : b.heights.getD c 0 = 7 * c + j
      · rw [decide_eq_true_iff.mpr hij]
        have : ¬(7 * c + j < 49 ∧ 7 * c + j < b.heights.getD c 0) := by omega
        rw [decide_eq_false_iff_not.mpr this]
        have : 7 * c + j < b.heights.getD c 0 + 1 := by omega
        rw [decide_eq_true_iff.mpr this]
        rfl
      · rw [decide_eq_false_iff_not.mpr hij]
        have h49 : 7 * c + j < 49 := by omega
        have : (7 * c + j < 49 ∧ 7 * c + j < b.heights.getD c 0) ↔
            (7 * c + j < b.heights.getD c 0 + 1) := by omega
        rw [Bool.xor_false]
        exact decide_eq_decide.mpr this
    · rw [getD_set_ne _ _ _ _ he, testBit_two_pow_iff]
      have hne : ¬(b.heights.getD c 0 = 7 * c' + j) := by
        have := hb.hhi c hc
        omega
      rw [decide_eq_false_iff_not.mpr hne]
      have h49 : 7 * c' + j < 49 := by omega
      have : (7 * c' + j < 49 ∧ 7 * c' + j < b.heights.getD c' 0) ↔
          (7 * c' + j < b.heights.getD c' 0) := by
        have := hb.hhi c' hc'
        omega
      rw [Bool.xor_false]
      exact decide_eq_decide.mpr this
  · apply lt_two_pow_of_testBit_false
    intro k hk
    rw [occAll_make hb hc, Nat.testBit_xor,
      testBit_false_of_lt _ 49 _ hb.ubound hk, testBit_two_pow_iff]
    have : ¬(b.heights.getD c 0 = k) := by
      have := hb.hhi c hc
      omega
    rw [decide_eq_false_iff_not.mpr this]
    rfl
  · rw [make_move_ply, make_move_heights, hb.plysum]
    have : ∀ x ∈ Finset.range 7,
        ((b.heights.set c (b.heights.getD c 0 + 1)).getD x 0 - 7 * x) =
          (b.heights.getD x 0 - 7 * x) + (if x = c then 1 else 0) := by
      intro x hx
      by_cases he : x = c
      · subst he
        rw [getD_set_self _ _ _ (by rw [hb.hlen]; omega), if_pos rfl]
        omega
      · rw [getD_set_ne _ _ _ _ (fun h => he h.symm), if_neg he]
        omega
    rw [Finset.sum_congr rfl this, Finset.sum_add_distrib,
      Finset.sum_ite_eq' (Finset.range 7) c (fun _ => 1),
      if_pos (Finset.mem_range.mpr hc)]

end C4

namespace C4

/-- Applying a legal move and then undoing it restores `players`, `heights`
and `ply` exactly; the only residue is the move-history slot at the undone
ply, which now holds the undone column. -/
theorem make_undo {b : Board} (hb : BoardInv b) {c : Nat} (hc : c < 7)
    (hs : b.has_space c = true) :
    (b.make_move c).undo_move = { b with moves := b.moves.set b.ply c } := by
  have hply : b.ply < 42 := ply_lt_of_has_space hb hc hs
  have hlenh : c < b.heights.length := by rw [hb.hlen]; omega
  have hlenm : b.ply < b.moves.length := by rw [hb.mlen]; omega
  have hmv : (b.make_move c).moves.getD ((b.make_move c).ply - 1) 0 = c := by
    rw [make_move_moves, make_move_ply, Nat.add_sub_cancel, getD_set_self _ _ _ hlenm]
  rw [Board.undo_move, hmv]
  have hhd : (b.make_move c).heights.getD c 0 = b.heights.getD c 0 + 1 := by
    rw [make_move_heights, getD_set_self _ _ _ hlenh]
  rw [hhd, make_move_ply, Nat.add_sub_cancel, Nat.add_sub_cancel]
  have hhs : (b.make_move c).heights.set c (b.heights.getD c 0) = b.heights := by
    rw [make_move_heights, List.set_set, set_getD_self _ _ hlenh]
  have hpl : playersSet (b.make_move c).players (b.ply % 2)
      (playersGet (b.make_move c).players (b.ply % 2) ^^^
        (1 <<< b.heights.getD c 0)) = b.players := by
    rw [make_move_players, playersGet_set_self, Nat.xor_cancel_right, playersSet_set,
      playersSet_playersGet]
  rw [make_move_moves]
  exact Board.mk.injEq _ _ _ _ _ _ _ _ ▸ ⟨rfl, hhs, hpl, rfl⟩

end C4

namespace C4

theorem boardInv_moves_set {b : Board} (hb : BoardInv b) (p v : Nat) :
    BoardInv { b with moves := b.moves.set p v } := by
  refine ⟨hb.hlen, ?_, hb.hlo, hb.hhi, hb.occ, hb.ubound, hb.disj, hb.plysum⟩
  show (b.moves.set p v).length = 42
  rw [List.length_set, hb.mlen]

theorem reachable_inv {b : Board} (h : Reachable b) : BoardInv b := by
  induction h with
  | base => exact boardInv_new
  | step hr hc hs ih => exact boardInv_make ih hc hs
  | undo hr hc hs ih =>
    rw [make_undo ih hc hs]
    exact boardInv_moves_set ih _ _

end C4

namespace C4

/-! ### Base-128 digit view of bitboards (one digit per column) -/

/-- The 7-bit digit of `x` at column `c`. -/
def colChunk (x c : Nat) : Nat := x / 128 ^ c % 128

theorem colChunk_lt (x c : Nat) : colChunk x c < 128 :=
  Nat.mod_lt _ (by omega)

theorem testBit_colChunk (x c j : Nat) :
    (colChunk x c).testBit j = (decide (j < 7) && x.testBit (7 * c + j)) := by
  have h128 : (128 : Nat) ^ c = 2 ^ (7 * c) := by
    rw [Nat.pow_mul]
  rw [colChunk, h128]
  have h2 : (128 : Nat) = 2 ^ 7 := by norm_num
  rw [h2, Nat.testBit_mod_two_pow, ← Nat.shiftRight_eq_div_pow, Nat.testBit_shiftRight]

theorem colChunk_lor (x y c : Nat) :
    colChunk (x ||| y) c = colChunk x c ||| colChunk y c := by
  apply Nat.eq_of_testBit_eq
  intro j
  rw [Nat.testBit_or, testBit_colChunk, testBit_colChunk, testBit_colChunk, Nat.testBit_or]
  cases decide (j < 7) <;> simp

theorem colChunk_land_zero {x y : Nat} (h : x &&& y = 0) (c : Nat) :
    colChunk x c &&& colChunk y c = 0 := by
  rw [land_eq_zero_iff] at h ⊢
  intro j ⟨hx, hy⟩
  rw [testBit_colChunk, Bool.and_eq_true] at hx hy
  exact h (7 * c + j) ⟨hx.2, hy.2⟩

theorem sum_chunks_aux : ∀ (n : Nat) (x : Nat), x < 128 ^ n →
    x = ∑ c ∈ Finset.range n, (x / 128 ^ c % 128) * 128 ^ c := by
  intro n
  induction n with
  | zero =>
    intro x hx
    simp only [pow_zero] at hx
    have hx0 : x = 0 := by omega
    subst hx0
    simp
  | succ m ih =>
    intro x hx
    have hdiv : x / 128 < 128 ^ m := by
      apply Nat.div_lt_of_lt_mul
      rw [← pow_succ']
      exact hx
    have hih := ih (x / 128) hdiv
    rw [Finset.sum_range_succ']
    have e2 : ∀ i ∈ Finset.range m, (x / 128 ^ (i + 1) % 128) * 128 ^ (i + 1)
        = 128 * ((x / 128 / 128 ^ i % 128) * 128 ^ i) := by
      intro i _
      rw [pow_succ', Nat.div_div_eq_div_mul, ← pow_succ', pow_succ]
      ring
    rw [Finset.sum_congr rfl e2, ← Finset.mul_sum, ← hih]
    simp only [pow_zero, Nat.div_one, mul_one]
    omega

theorem sum_chunks (x : Nat) (hx : x < 2 ^ 49) :
    x = ∑ c ∈ Finset.range 7, colChunk x c * 128 ^ c := by
  have : (2 : Nat) ^ 49 = 128 ^ 7 := by norm_num
  exact sum_chunks_aux 7 x (this ▸ hx)

theorem digit_sum_inj : ∀ (n : Nat) (d e : Nat → Nat),
    (∀ c, c < n → d c < 128) → (∀ c, c < n → e c < 128) →
    ∑ c ∈ Finset.range n, d c * 128 ^ c = ∑ c ∈ Finset.range n, e c * 128 ^ c →
    ∀ c, c < n → d c = e c := by
  intro n
  induction n with
  | zero => intro _ _ _ _ _ c hc; omega
  | succ m ih =>
    intro d e hd he hsum c hc
    rw [Finset.sum_range_succ', Finset.sum_range_succ'] at hsum
    have e2 : ∀ (f : Nat → Nat), ∀ i ∈ Finset.range m, f (i + 1) * 128 ^ (i + 1)
        = 128 * (f (i + 1) * 128 ^ i) := by
      intro f i _
      rw [pow_succ]
      ring
    rw [Finset.sum_congr rfl (e2 d), Finset.sum_congr rfl (e2 e),
      ← Finset.mul_sum, ← Finset.mul_sum] at hsum
    simp only [pow_zero, mul_one] at hsum
    have hd0 := hd 0 (by omega)
    have he0 := he 0 (by omega)
    rcases Nat.eq_zero_or_pos c with hc0 | hcpos
    · subst hc0
      omega
    · obtain ⟨k, rfl⟩ : ∃ k, c = k + 1 := ⟨c - 1, by omega⟩
      have heqD : (∑ i ∈ Finset.range m, d (i + 1) * 128 ^ i)
          = ∑ i ∈ Finset.range m, e (i + 1) * 128 ^ i := by omega
      exact ih (fun i => d (i + 1)) (fun i => e (i + 1))
        (fun i hi => hd _ (by omega)) (fun i hi => he _ (by omega)) heqD k (by omega)

set_option maxRecDepth 100000 in
theorem small_add_lor : ∀ x, x < 128 → ∀ y, y < 128 → x &&& y = 0 →
    x + y = (x ||| y) := by decide

end C4

namespace C4

/-- The active player's bitboard (`players[ply & 1]`). -/
def activeP (b : Board) : Nat := playersGet b.players (b.ply % 2)

/-- The number of tokens in column `c`. -/
def relH (b : Board) (c : Nat) : Nat := b.heights.getD c 0 - 7 * c

theorem players_lt {b : Board} (hb : BoardInv b) (k : Nat) :
    playersGet b.players k < 2 ^ 49 := by
  apply lt_two_pow_of_testBit_false
  intro i hi
  cases hp : (playersGet b.players k).testBit i with
  | false => rfl
  | true =>
    have := players_testBit_imp b k i hp
    rw [testBit_false_of_lt _ 49 _ hb.ubound hi] at this
    exact absurd this (by simp)

theorem players1_lt {b : Board} (hb : BoardInv b) : b.players.1 < 2 ^ 49 :=
  players_lt hb 0

theorem players2_lt {b : Board} (hb : BoardInv b) : b.players.2 < 2 ^ 49 := by
  have := players_lt hb 1
  unfold playersGet at this
  simpa using this

theorem relH_le {b : Board} (hb : BoardInv b) {c : Nat} (hc : c < 7) :
    relH b c ≤ 6 := by
  have := hb.hhi c hc
  have := hb.hlo c hc
  unfold relH
  omega

theorem occChunk {b : Board} (hb : BoardInv b) {c : Nat} (hc : c < 7) :
    colChunk (occAll b) c = 2 ^ relH b c - 1 := by
  have h1 := hb.hlo c hc
  have h2 := hb.hhi c hc
  apply Nat.eq_of_testBit_eq
  intro j
  rw [testBit_colChunk, Nat.testBit_two_pow_sub_one]
  by_cases hj : j < 7
  · rw [decide_eq_true_iff.mpr hj, Bool.true_and, hb.occ c hc j hj]
    have : (7 * c + j < b.heights.getD c 0) ↔ (j < relH b c) := by
      unfold relH
      omega
    exact decide_eq_decide.mpr this
  · rw [decide_eq_false_iff_not.mpr hj, Bool.false_and]
    have hr := relH_le hb hc
    symm
    rw [decide_eq_false_iff_not]
    omega

theorem playerChunk_lt {b : Board} (hb : BoardInv b) {c : Nat} (hc : c < 7)
    (k : Nat) : colChunk (playersGet b.players k) c < 2 ^ relH b c := by
  have h1 := hb.hlo c hc
  apply lt_two_pow_of_testBit_false
  intro j hj
  rw [testBit_colChunk]
  by_cases h7 : j < 7
  · rw [decide_eq_true_iff.mpr h7, Bool.true_and]
    cases hp : (playersGet b.players k).testBit (7 * c + j) with
    | false => rfl
    | true =>
      have ho := players_testBit_imp b k _ hp
      rw [hb.occ c hc j h7, decide_eq_true_iff] at ho
      unfold relH at hj
      omega
  · rw [decide_eq_false_iff_not.mpr h7, Bool.false_and]

theorem players_chunk_add {b : Board} (hb : BoardInv b) (c : Nat) :
    colChunk b.players.1 c + colChunk b.players.2 c = colChunk (occAll b) c := by
  rw [occAll, colChunk_lor]
  exact small_add_lor _ (colChunk_lt _ _) _ (colChunk_lt _ _)
    (colChunk_land_zero hb.disj c)

theorem bottomChunk : ∀ c, c < 7 → colChunk BOTTOM c = 1 := by decide

theorem digit_sum_lt : ∀ (n : Nat) (d : Nat → Nat), (∀ c, c < n → d c < 128) →
    ∑ c ∈ Finset.range n, d c * 128 ^ c < 128 ^ n := by
  intro n
  induction n with
  | zero => intro d hd; simp
  | succ m ih =>
    intro d hd
    rw [Finset.sum_range_succ']
    have e2 : ∀ i ∈ Finset.range m, d (i + 1) * 128 ^ (i + 1)
        = 128 * (d (i + 1) * 128 ^ i) := by
      intro i _
      rw [pow_succ]
      ring
    rw [Finset.sum_congr rfl e2, ← Finset.mul_sum]
    have hD := ih (fun i => d (i + 1)) (fun i hi => hd _ (by omega))
    simp only [] at hD
    have hd0 := hd 0 (by omega)
    have : (128 : Nat) ^ (m + 1) = 128 * 128 ^ m := by rw [pow_succ']
    simp only [pow_zero, mul_one]
    omega

set_option maxRecDepth 10000 in
/-- The digits of `position_code`, column by column: the active player's
chunk plus `2 ^ height`. -/
theorem code_digits {b : Board} (hb : BoardInv b) :
    b.position_code =
      ∑ c ∈ Finset.range 7, (colChunk (activeP b) c + 2 ^ relH b c) * 128 ^ c := by
  have key : ∀ c ∈ Finset.range 7,
      (colChunk (activeP b) c + 2 ^ relH b c) * 128 ^ c
        = colChunk (activeP b) c * 128 ^ c + (colChunk b.players.1 c * 128 ^ c
            + (colChunk b.players.2 c * 128 ^ c + colChunk BOTTOM c * 128 ^ c)) := by
    intro c hc
    have hc7 : c < 7 := Finset.mem_range.mp hc
    have hocc := players_chunk_add hb c
    rw [occChunk hb hc7] at hocc
    rw [bottomChunk c hc7]
    have hpos : (0 : Nat) < 2 ^ relH b c := Nat.pos_pow_of_pos _ (by omega)
    have hsplit : colChunk (activeP b) c + 2 ^ relH b c
        = colChunk (activeP b) c
            + (colChunk b.players.1 c + (colChunk b.players.2 c + 1)) := by omega
    rw [hsplit]
    ring
  rw [Finset.sum_congr rfl key, Finset.sum_add_distrib, Finset.sum_add_distrib,
    Finset.sum_add_distrib, ← sum_chunks (activeP b) (players_lt hb _),
    ← sum_chunks b.players.1 (players1_lt hb), ← sum_chunks b.players.2 (players2_lt hb),
    ← sum_chunks BOTTOM (by decide)]
  unfold Board.position_code activeP
  ring

theorem code_digit_lt {b : Board} (hb : BoardInv b) {c : Nat} (hc : c < 7) :
    colChunk (activeP b) c + 2 ^ relH b c < 128 := by
  have h1 := playerChunk_lt hb hc (b.ply % 2)
  have h2 := relH_le hb hc
  have h3 : (2 : Nat) ^ relH b c ≤ 2 ^ 6 := Nat.pow_le_pow_right (by omega) h2
  unfold activeP at h1 ⊢
  omega

theorem pow_digit_inj {a1 r1 a2 r2 : Nat} (h1 : a1 < 2 ^ r1) (h2 : a2 < 2 ^ r2)
    (h : a1 + 2 ^ r1 = a2 + 2 ^ r2) : r1 = r2 ∧ a1 = a2 := by
  rcases Nat.lt_trichotomy r1 r2 with hlt | heq | hgt
  · exfalso
    have : (2 : Nat) ^ (r1 + 1) ≤ 2 ^ r2 := Nat.pow_le_pow_right (by omega) (by omega)
    have : (2 : Nat) ^ (r1 + 1) = 2 ^ r1 * 2 := pow_succ 2 r1
    omega
  · subst heq
    omega
  · exfalso
    have : (2 : Nat) ^ (r2 + 1) ≤ 2 ^ r1 := Nat.pow_le_pow_right (by omega) (by omega)
    have : (2 : Nat) ^ (r2 + 1) = 2 ^ r2 * 2 := pow_succ 2 r2
    omega

theorem list_eq_of_getD {l1 l2 : List Nat} (h1 : l1.length = 7) (h2 : l2.length = 7)
    (h : ∀ c, c < 7 → l1.getD c 0 = l2.getD c 0) : l1 = l2 := by
  apply List.ext_getElem?
  intro i
  by_cases hi : i < 7
  · have e1 : l1[i]? = some (l1.getD i 0) := by
      rw [List.getD_eq_getElem?_getD]
      cases hx : l1[i]? with
      | none => rw [List.getElem?_eq_none_iff] at hx; omega
      | some v => rfl
    have e2 : l2[i]? = some (l2.getD i 0) := by
      rw [List.getD_eq_getElem?_getD]
      cases hx : l2[i]? with
      | none => rw [List.getElem?_eq_none_iff] at hx; omega
      | some v => rfl
    rw [e1, e2, h i hi]
  · rw [List.getElem?_eq_none_iff.mpr (by omega), List.getElem?_eq_none_iff.mpr (by omega)]

theorem lor_xor_cancel {x y : Nat} (h : x &&& y = 0) : (x ||| y) ^^^ y = x := by
  rw [land_eq_zero_iff] at h
  apply Nat.eq_of_testBit_eq
  intro i
  rw [Nat.testBit_xor, Nat.testBit_or]
  cases hy : y.testBit i with
  | false => cases x.testBit i <;> rfl
  | true =>
    cases hx : x.testBit i with
    | false => rfl
    | true => exact absurd ⟨hx, hy⟩ (h i)

end C4

namespace C4

theorem players2_eq_xor {b : Board} (hb : BoardInv b) :
    b.players.2 = occAll b ^^^ b.players.1 := by
  have hd : b.players.2 &&& b.players.1 = 0 := by
    rw [Nat.land_comm]
    exact hb.disj
  rw [occAll, Nat.lor_comm, lor_xor_cancel hd]

theorem players1_eq_xor {b : Board} (hb : BoardInv b) :
    b.players.1 = occAll b ^^^ b.players.2 := by
  rw [occAll, lor_xor_cancel hb.disj]

theorem activeP_even {b : Board} (hp : b.ply % 2 = 0) : activeP b = b.players.1 := by
  unfold activeP playersGet
  rw [hp]
  rfl

theorem activeP_odd {b : Board} (hp : b.ply % 2 = 1) : activeP b = b.players.2 := by
  unfold activeP playersGet
  rw [hp]
  rfl

/-- Injectivity of `position_code` on invariant-satisfying boards: equal
codes force equal player bitboards, equal heights and equal ply. -/
theorem code_inj {b1 b2 : Board} (h1 : BoardInv b1) (h2 : BoardInv b2)
    (h : b1.position_code = b2.position_code) :
    b1.players = b2.players ∧ b1.heights = b2.heights ∧ b1.ply = b2.ply := by
  have hsum : ∑ c ∈ Finset.range 7, (colChunk (activeP b1) c + 2 ^ relH b1 c) * 128 ^ c
      = ∑ c ∈ Finset.range 7, (colChunk (activeP b2) c + 2 ^ relH b2 c) * 128 ^ c := by
    rw [← code_digits h1, ← code_digits h2, h]
  have hdig := digit_sum_inj 7 _ _ (fun c hc => code_digit_lt h1 hc)
    (fun c hc => code_digit_lt h2 hc) hsum
  have hcol : ∀ c, c < 7 → relH b1 c = relH b2 c ∧
      colChunk (activeP b1) c = colChunk (activeP b2) c := by
    intro c hc
    have hq := hdig c hc
    have ha1 : colChunk (activeP b1) c < 2 ^ relH b1 c := playerChunk_lt h1 hc _
    have ha2 : colChunk (activeP b2) c < 2 ^ relH b2 c := playerChunk_lt h2 hc _
    have := pow_digit_inj ha1 ha2 hq
    exact ⟨this.1, this.2⟩
  have hheights : b1.heights = b2.heights := by
    apply list_eq_of_getD h1.hlen h2.hlen
    intro c hc
    have hr := (hcol c hc).1
    have l1 := h1.hlo c hc
    have l2 := h2.hlo c hc
    unfold relH at hr
    omega
  have hply : b1.ply = b2.ply := by
    rw [h1.plysum, h2.plysum, hheights]
  have hact : activeP b1 = activeP b2 := by
    rw [sum_chunks (activeP b1) (players_lt h1 _), sum_chunks (activeP b2) (players_lt h2 _)]
    exact Finset.sum_congr rfl (fun c hc => by rw [(hcol c (Finset.mem_range.mp hc)).2])
  have hocc : occAll b1 = occAll b2 := by
    apply Nat.eq_of_testBit_eq
    intro i
    rw [occ_testBit_iff h1, occ_testBit_iff h2, hheights]
  refine ⟨?_, hheights, hply⟩
  rcases Nat.mod_two_eq_zero_or_one b1.ply with hp | hp
  · have hp2 : b2.ply % 2 = 0 := by rw [← hply]; exact hp
    have e1 : b1.players.1 = b2.players.1 := by
      rw [← activeP_even hp, ← activeP_even hp2, hact]
    have e2 : b1.players.2 = b2.players.2 := by
      rw [players2_eq_xor h1, players2_eq_xor h2, hocc, e1]
    exact Prod.ext e1 e2
  · have hp2 : b2.ply % 2 = 1 := by rw [← hply]; exact hp
    have e2 : b1.players.2 = b2.players.2 := by
      rw [← activeP_odd hp, ← activeP_odd hp2, hact]
    have e1 : b1.players.1 = b2.players.1 := by
      rw [players1_eq_xor h1, players1_eq_xor h2, hocc, e2]
    exact Prod.ext e1 e2

end C4

namespace C4

/-! ### The heuristic evaluator: folds as sums, antisymmetry, bounds -/

/-- The contribution of one direction at one occupied cell. -/
def dirTerm (b : Board) (side : Token) (row column : Nat) (token : Token)
    (d : Int × Int) : Int :=
  let f := get_length b (row, column) d token
  let bk := get_length b (row, column) (-d.1, -d.2) token
  let current_len := f.1 + bk.1 + 1
  let possible_len := f.2 + bk.2 + 1
  if 4 ≤ possible_len then
    if side = token then 10 * (current_len : Int) else -(10 * (current_len : Int))
  else 0

theorem dirStep_eq (b : Board) (side : Token) (row column : Nat) (token : Token)
    (acc : Int) (d : Int × Int) :
    dirStep b side row column token acc d = acc + dirTerm b side row column token d := by
  unfold dirStep dirTerm
  by_cases h4 : 4 ≤ (get_length b (row, column) d token).2
      + (get_length b (row, column) (-d.1, -d.2) token).2 + 1
  · rw [if_pos h4, if_pos h4]
    by_cases hs : side = token
    · rw [if_pos hs, if_pos hs]
    · rw [if_neg hs, if_neg hs]
      ring
  · rw [if_neg h4, if_neg h4]
    ring

theorem foldl_add_shape {α : Type} (g : α → Int) :
    ∀ (l : List α) (step : Int → α → Int), (∀ a x, step a x = a + g x) →
      ∀ acc : Int, l.foldl step acc = acc + (l.map g).sum := by
  intro l
  induction l with
  | nil => intro step hstep acc; simp
  | cons x xs ih =>
    intro step hstep acc
    rw [List.foldl_cons, ih step hstep, hstep]
    simp
    ring

/-- The contribution of one cell (zero when empty, else the sum over the four
directions). -/
def cellTerm (b : Board) (side : Token) (column row : Nat) : Int :=
  match b.token_at row column with
  | some token => (DIRECTION.map (dirTerm b side row column token)).sum
  | none => 0

theorem cellStep_eq (b : Board) (side : Token) (column : Nat) (acc : Int) (row : Nat) :
    (match b.token_at row column with
      | some token => DIRECTION.foldl (dirStep b side row column token) acc
      | none => acc) = acc + cellTerm b side column row := by
  unfold cellTerm
  cases b.token_at row column with
  | some token => exact foldl_add_shape _ DIRECTION _ (dirStep_eq b side row column token) acc
  | none => simp

/-- The contribution of one column. -/
def columnTerm (b : Board) (side : Token) (column : Nat) : Int :=
  ((List.range HEIGHT).map (cellTerm b side column)).sum

/-- `heuristic_value` in the non-terminal case is the sum of all cell
contributions. -/
theorem heuristic_value_sum (b : Board) (side : Token) :
    heuristic_value b side none false =
      ((List.range WIDTH).map (columnTerm b side)).sum := by
  have hstep : ∀ (a : Int) (column : Nat),
      (List.range HEIGHT).foldl (fun acc row =>
        match b.token_at row column with
        | some token => DIRECTION.foldl (dirStep b side row column token) acc
        | none => acc) a = a + columnTerm b side column := by
    intro a column
    unfold columnTerm
    exact foldl_add_shape (cellTerm b side column) (List.range HEIGHT) _
      (fun acc row => cellStep_eq b side column acc row) a
  have hv : heuristic_value b side none false =
      (List.range WIDTH).foldl (fun acc column =>
        (List.range HEIGHT).foldl (fun acc row =>
          match b.token_at row column with
          | some token => DIRECTION.foldl (dirStep b side row column token) acc
          | none => acc) acc) 0 := rfl
  rw [hv, foldl_add_shape (columnTerm b side) (List.range WIDTH) _ hstep 0]
  simp

theorem map_sum_neg {α : Type} (g1 g2 : α → Int) (h : ∀ x, g1 x = -g2 x) :
    ∀ l : List α, (l.map g1).sum = -((l.map g2).sum) := by
  intro l
  induction l with
  | nil => simp
  | cons x xs ih =>
    simp only [List.map_cons, List.sum_cons, ih, h x]
    ring

theorem dirTerm_antisym (b : Board) (row column : Nat) (token : Token) (d : Int × Int) :
    dirTerm b Token.Player1 row column token d =
      -dirTerm b Token.Player2 row column token d := by
  unfold dirTerm
  by_cases h4 : 4 ≤ (get_length b (row, column) d token).2
      + (get_length b (row, column) (-d.1, -d.2) token).2 + 1
  · rw [if_pos h4, if_pos h4]
    cases token <;> simp
  · rw [if_neg h4, if_neg h4]
    ring

theorem cellTerm_antisym (b : Board) (column row : Nat) :
    cellTerm b Token.Player1 column row = -cellTerm b Token.Player2 column row := by
  unfold cellTerm
  cases b.token_at row column with
  | some token => exact map_sum_neg _ _ (dirTerm_antisym b row column token) DIRECTION
  | none => simp

theorem columnTerm_antisym (b : Board) (column : Nat) :
    columnTerm b Token.Player1 column = -columnTerm b Token.Player2 column := by
  unfold columnTerm
  exact map_sum_neg _ _ (cellTerm_antisym b column) (List.range HEIGHT)

/-- The heuristic is an exactly antisymmetric zero-sum estimate, whatever the
winner/fullness flags. -/
theorem heuristic_antisym (b : Board) (w : Option Token) (f : Bool) :
    heuristic_value b Token.Player1 w f = -heuristic_value b Token.Player2 w f := by
  cases w with
  | some t =>
    cases t <;> simp [heuristic_value]
  | none =>
    cases f with
    | true => simp [heuristic_value]
    | false =>
      rw [heuristic_value_sum, heuristic_value_sum]
      exact map_sum_neg _ _ (columnTerm_antisym b) (List.range WIDTH)

end C4

namespace C4

/-- A global magnitude bound on every heuristic and search value. -/
def HB : Int := 1048576

theorem getLengthAux_le (b : Board) (side : Token) (di dj : Int) :
    ∀ (fuel : Nat) (row column : Int),
      (getLengthAux b side di dj fuel row column).1 ≤ fuel ∧
        (getLengthAux b side di dj fuel row column).2 ≤ fuel := by
  intro fuel
  induction fuel with
  | zero => intro row column; exact ⟨Nat.le_refl 0, Nat.le_refl 0⟩
  | succ m ih =>
    intro row column
    rw [getLengthAux]
    by_cases hin : 0 ≤ row + di ∧ row + di < (HEIGHT : Int) ∧
        0 ≤ column + dj ∧ column + dj < (WIDTH : Int)
    · rw [if_pos hin]
      cases ht : b.token_at (row + di).toNat (column + dj).toNat with
      | some t =>
        simp only []
        by_cases hs : t = side
        · rw [if_pos hs]
          have := ih (row + di) (column + dj)
          omega
        · rw [if_neg hs]
          omega
      | none =>
        simp only []
        have := ih (row + di) (column + dj)
        omega
    · rw [if_neg hin]
      omega

theorem abs_dirTerm_le (b : Board) (side : Token) (row column : Nat) (token : Token)
    (d : Int × Int) : |dirTerm b side row column token d| ≤ 330 := by
  unfold dirTerm
  have hf := getLengthAux_le b token d.1 d.2 16 (row : Int) (column : Int)
  have hbk := getLengthAux_le b token (-d.1) (-d.2) 16 (row : Int) (column : Int)
  unfold get_length
  by_cases h4 : 4 ≤ (getLengthAux b token d.1 d.2 16 (row : Int) (column : Int)).2
      + (getLengthAux b token (-d.1) (-d.2) 16 (row : Int) (column : Int)).2 + 1
  · rw [if_pos h4]
    have hc : (getLengthAux b token d.1 d.2 16 (row : Int) (column : Int)).1
        + (getLengthAux b token (-d.1) (-d.2) 16 (row : Int) (column : Int)).1 + 1 ≤ 33 := by
      omega
    by_cases hs : side = token
    · rw [if_pos hs, abs_of_nonneg (by positivity)]
      push_cast
      omega
    · rw [if_neg hs, abs_neg, abs_of_nonneg (by positivity)]
      push_cast
      omega
  · rw [if_neg h4]
    simp

theorem sum_map_abs_le {α : Type} (g : α → Int) (C : Int) (h : ∀ x, |g x| ≤ C) :
    ∀ l : List α, |(l.map g).sum| ≤ l.length * C := by
  intro l
  induction l with
  | nil => simp
  | cons x xs ih =>
    simp only [List.map_cons, List.sum_cons, List.length_cons]
    calc |g x + (xs.map g).sum| ≤ |g x| + |(xs.map g).sum| := abs_add _ _
      _ ≤ C + xs.length * C := by
          have := h x
          omega
      _ = (xs.length + 1) * C := by ring

theorem abs_cellTerm_le (b : Board) (side : Token) (column row : Nat) :
    |cellTerm b side column row| ≤ 1320 := by
  unfold cellTerm
  cases b.token_at row column with
  | some token =>
    have := sum_map_abs_le _ 330 (abs_dirTerm_le b side row column token) DIRECTION
    simpa using this
  | none => simp

theorem abs_columnTerm_le (b : Board) (side : Token) (column : Nat) :
    |columnTerm b side column| ≤ 7920 := by
  unfold columnTerm
  have := sum_map_abs_le _ 1320 (abs_cellTerm_le b side column) (List.range HEIGHT)
  simpa using this

theorem abs_heuristic_le (b : Board) (side : Token) (w : Option Token) (f : Bool) :
    |heuristic_value b side w f| ≤ HB := by
  cases w with
  | some t =>
    unfold heuristic_value
    by_cases hs : t = side <;> simp [hs, HB]
  | none =>
    cases f with
    | true => simp [heuristic_value, HB]
    | false =>
      rw [heuristic_value_sum]
      have := sum_map_abs_le _ 7920 (abs_columnTerm_le b side) (List.range WIDTH)
      simp only [List.length_range] at this
      unfold WIDTH at this ⊢
      unfold HB
      omega

theorem abs_hval_le (b : Board) (side : Token) : |hval b side| ≤ HB :=
  abs_heuristic_le b side _ _

/-! ### Saturating arithmetic facts -/

theorem satNeg_eq {x : Int} (h : |x| ≤ HB) : satNeg x = -x := by
  rw [abs_le] at h
  unfold HB at h
  have h1 : -x ≤ I32_MAX := by unfold I32_MAX; omega
  have h2 : I32_MIN ≤ -x := by unfold I32_MIN; omega
  unfold satNeg i32clamp
  rw [min_eq_right h1, max_eq_right h2]

theorem satNeg_MIN : satNeg I32_MIN = I32_MAX := by decide

theorem satNeg_MIN1 : satNeg (I32_MIN + 1) = I32_MAX := by decide

theorem satNeg_le_MAX (x : Int) : satNeg x ≤ I32_MAX := by
  unfold satNeg i32clamp I32_MIN I32_MAX
  omega

theorem MIN_lt_satNeg (x : Int) (h : x ≤ I32_MAX) : I32_MIN < satNeg x := by
  unfold satNeg i32clamp I32_MIN I32_MAX at *
  omega

/-! ### Folded maxima -/

theorem foldl_max_le_init (w : Nat → Int) :
    ∀ (l : List Nat) (init : Int), init ≤ l.foldl (fun v c => max v (w c)) init := by
  intro l
  induction l with
  | nil => intro init; simp
  | cons x xs ih =>
    intro init
    rw [List.foldl_cons]
    exact le_trans (le_max_left _ _) (ih (max init (w x)))

theorem foldl_max_ge_mem (w : Nat → Int) :
    ∀ (l : List Nat) (init : Int) (c : Nat), c ∈ l →
      w c ≤ l.foldl (fun v c => max v (w c)) init := by
  intro l
  induction l with
  | nil => intro init c hc; exact absurd hc (List.not_mem_nil c)
  | cons x xs ih =>
    intro init c hc
    rw [List.foldl_cons]
    rcases List.mem_cons.mp hc with he | hm
    · subst he
      exact le_trans (le_max_right _ _) (foldl_max_le_init w xs _)
    · exact ih _ c hm

theorem foldl_max_le (w : Nat → Int) (C : Int) :
    ∀ (l : List Nat) (init : Int), init ≤ C → (∀ c ∈ l, w c ≤ C) →
      l.foldl (fun v c => max v (w c)) init ≤ C := by
  intro l
  induction l with
  | nil => intro init h _; simpa using h
  | cons x xs ih =>
    intro init hinit hw
    rw [List.foldl_cons]
    exact ih _ (max_le hinit (hw x (List.mem_cons_self x xs)))
      (fun c hc => hw c (List.mem_cons_of_mem x hc))

theorem foldl_max_mono (w : Nat → Int) :
    ∀ (l : List Nat) (a b : Int), a ≤ b →
      l.foldl (fun v c => max v (w c)) a ≤ l.foldl (fun v c => max v (w c)) b := by
  intro l
  induction l with
  | nil => intro a b h; simpa using h
  | cons x xs ih =>
    intro a b h
    rw [List.foldl_cons, List.foldl_cons]
    exact ih _ _ (max_le_max h (le_refl _))

theorem foldl_max_absorb (w : Nat → Int) :
    ∀ (l : List Nat) (a x : Int),
      l.foldl (fun v c => max v (w c)) (max a x) =
        max (l.foldl (fun v c => max v (w c)) a) x := by
  intro l
  induction l with
  | nil => intro a x; simp
  | cons y ys ih =>
    intro a x
    rw [List.foldl_cons, List.foldl_cons]
    rw [show max (max a x) (w y) = max (max a (w y)) x by omega]
    exact ih _ x

/-! ### Bound on the reference minimax value -/

theorem MIN_le_HB : I32_MIN ≤ -HB := by decide

theorem abs_minimax_le : ∀ (d : Nat) (b : Board) (side : Token),
    |minimax d b side| ≤ HB := by
  intro d
  induction d with
  | zero => intro b side; exact abs_hval_le b side
  | succ m ih =>
    intro b side
    rw [minimax]
    by_cases ht : (b.winner.isSome || b.legal_moves.isEmpty) = true
    · rw [if_pos ht]
      exact abs_hval_le b side
    · rw [if_neg ht]
      have hne : b.legal_moves ≠ [] := by
        intro he
        rw [he] at ht
        simp at ht
      obtain ⟨c0, hc0⟩ := List.exists_mem_of_ne_nil _ hne
      have hw : ∀ c ∈ b.legal_moves,
          satNeg (minimax m (b.make_move c) side.opponent) ≤ HB := by
        intro c _
        rw [satNeg_eq (ih _ _)]
        have := ih (b.make_move c) side.opponent
        rw [abs_le] at this
        omega
      have hwlo : -HB ≤ satNeg (minimax m (b.make_move c0) side.opponent) := by
        rw [satNeg_eq (ih _ _)]
        have := ih (b.make_move c0) side.opponent
        rw [abs_le] at this
        omega
      rw [abs_le]
      constructor
      · exact le_trans hwlo (foldl_max_ge_mem _ _ _ _ hc0)
      · exact foldl_max_le _ HB _ _ (by decide) hw

end C4

namespace C4

/-! ### Four-in-a-line configurations for win detection -/

/-- Bit index of cell `(row, column)` in the encoding (`row + column * 7`). -/
def cellIdx (row column : Nat) : Nat := row + column * 7

/-- The `k`-th cell (k < 4) of a four-in-a-line starting at `(r, c)` in
direction `dir` (0 = horizontal, 1 = vertical, 2 = diagonal rising with the
column, 3 = diagonal falling with the column). -/
def lineCells (dir r c k : Nat) : Nat :=
  match dir with
  | 0 => cellIdx r (c + k)
  | 1 => cellIdx (r + k) c
  | 2 => cellIdx (r + k) (c + k)
  | _ => cellIdx (r + 3 - k) (c + k)

/-- Whether the whole four-cell line lies on the 6-row, 7-column board. -/
def lineOK (dir r c : Nat) : Bool :=
  match dir with
  | 0 => decide (r < 6) && decide (c + 3 < 7)
  | 1 => decide (r + 3 < 6) && decide (c < 7)
  | _ => decide (r + 3 < 6) && decide (c + 3 < 7)

/-- The bit-set holding exactly the four cells of the line. -/
def lineSet (dir r c : Nat) : Nat :=
  2 ^ lineCells dir r c 0 + 2 ^ lineCells dir r c 1 +
    2 ^ lineCells dir r c 2 + 2 ^ lineCells dir r c 3

end C4

namespace C4

/-! ### Claim theorems -/

/-- C2 counterexample: the round trip is not bit-for-bit the identity.  On
the empty board (reachable) column 1 is legal, yet applying and undoing the
move leaves a board that differs from the original (`moves[0]` now holds 1). -/
theorem claim_C2_counterexample :
    Reachable Board.new ∧ Board.new.has_space 1 = true ∧
      (Board.new.make_move 1).undo_move ≠ Board.new :=
  ⟨Reachable.base, by decide, by decide⟩

/-- C2 (amended): applying a legal move then undoing it restores `players`,
`heights` and `ply` to bit-for-bit equality with their pre-move state, for
every legal column and every reachable Position; the `moves` array is the
pre-move array except that the entry at the undone ply now holds the played
column. -/
theorem claim_C2 (b : Board) (c : Nat) (hr : Reachable b) (hc : c < WIDTH)
    (hs : b.has_space c = true) :
    ((b.make_move c).undo_move).players = b.players ∧
      ((b.make_move c).undo_move).heights = b.heights ∧
      ((b.make_move c).undo_move).ply = b.ply ∧
      ((b.make_move c).undo_move).moves = b.moves.set b.ply c := by
  rw [make_undo (reachable_inv hr) hc hs]
  exact ⟨rfl, rfl, rfl, rfl⟩

theorem claim_C2_witness :
    Reachable Board.new ∧ (0 < WIDTH) ∧ Board.new.has_space 0 = true ∧
      ((Board.new.make_move 0).undo_move).players = Board.new.players :=
  ⟨Reachable.base, by decide, by decide,
    (claim_C2 Board.new 0 Reachable.base (by decide) (by decide)).1⟩

set_option maxRecDepth 10000 in
/-- C3: every bit-set of exactly four contiguous cells along a row, a column
or either diagonal of the board is detected as a win by `is_win`, and
removing any one of the four cells yields a bit-set that is not detected as
a win. -/
theorem claim_C3 (dir r c : Nat) (hdir : dir < 4) (hr : r < 6) (hc : c < 7)
    (hok : lineOK dir r c = true) :
    is_win (lineSet dir r c) = true ∧
      ∀ k, k < 4 → is_win (lineSet dir r c - 2 ^ lineCells dir r c k) = false := by
  suffices h : ∀ dir, dir < 4 → ∀ r, r < 6 → ∀ c, c < 7 → lineOK dir r c = true →
      (is_win (lineSet dir r c) = true ∧
        ∀ k, k < 4 → is_win (lineSet dir r c - 2 ^ lineCells dir r c k) = false) by
    exact h dir hdir r hr c hc hok
  decide

theorem claim_C3_witness :
    (0 : Nat) < 4 ∧ (0 : Nat) < 6 ∧ (0 : Nat) < 7 ∧ lineOK 0 0 0 = true ∧
      is_win (lineSet 0 0 0) = true ∧
      is_win (lineSet 0 0 0 - 2 ^ lineCells 0 0 0 2) = false :=
  ⟨by decide, by decide, by decide, by decide,
    (claim_C3 0 0 0 (by decide) (by decide) (by decide) (by decide)).1,
    (claim_C3 0 0 0 (by decide) (by decide) (by decide) (by decide)).2 2 (by decide)⟩

/-- C6: for a non-terminal position, swapping the perspective token negates
the heuristic value exactly (`hval` is `heuristic_value` applied, as the
search does, to the position's winner and fullness flags). -/
theorem claim_C6 (b : Board) (_hw : b.winner = none) (_hf : b.legal_moves ≠ []) :
    hval b Token.Player1 = -hval b Token.Player2 :=
  heuristic_antisym b b.winner b.legal_moves.isEmpty

theorem claim_C6_witness :
    Board.new.winner = none ∧ Board.new.legal_moves ≠ [] ∧
      hval Board.new Token.Player1 = -hval Board.new Token.Player2 :=
  ⟨by decide, by decide, claim_C6 Board.new (by decide) (by decide)⟩

/-- C7: on reachable positions, `position_code` values agree exactly when the
two positions have identical player bit-sets and the same side to move. -/
theorem claim_C7 (b1 b2 : Board) (h1 : Reachable b1) (h2 : Reachable b2) :
    b1.position_code = b2.position_code ↔
      (b1.players = b2.players ∧ b1.current_player = b2.current_player) := by
  constructor
  · intro h
    obtain ⟨hpl, hh, hp⟩ := code_inj (reachable_inv h1) (reachable_inv h2) h
    refine ⟨hpl, ?_⟩
    rw [Board.current_player, Board.current_player, hp]
  · intro ⟨hpl, hcp⟩
    have hpar : b1.ply % 2 = b2.ply % 2 := by
      rcases Nat.mod_two_eq_zero_or_one b1.ply with ha | ha <;>
        rcases Nat.mod_two_eq_zero_or_one b2.ply with hb | hb <;>
        rw [Board.current_player, Board.current_player, ha, hb] at hcp <;>
        simp at hcp <;> omega
    rw [Board.position_code, Board.position_code, hpl, hpar]

theorem claim_C7_witness :
    Reachable Board.new ∧
      (Board.new.position_code = Board.new.position_code ↔
        (Board.new.players = Board.new.players ∧
          Board.new.current_player = Board.new.current_player)) :=
  ⟨Reachable.base, claim_C7 Board.new Board.new Reachable.base Reachable.base⟩

/-- C8: on every position reachable by legal moves and paired undos the two
players' bit-sets are disjoint, and the disjointness is preserved by a legal
`make_move` and by the paired `undo_move`. -/
theorem claim_C8 (b : Board) (hr : Reachable b) :
    b.players.1 &&& b.players.2 = 0 ∧
      (∀ c, c < WIDTH → b.has_space c = true →
        (b.make_move c).players.1 &&& (b.make_move c).players.2 = 0 ∧
          ((b.make_move c).undo_move).players.1 &&&
            ((b.make_move c).undo_move).players.2 = 0) := by
  refine ⟨(reachable_inv hr).disj, ?_⟩
  intro c hc hs
  exact ⟨(reachable_inv (Reachable.step hr hc hs)).disj,
    (reachable_inv (Reachable.undo hr hc hs)).disj⟩

theorem claim_C8_witness :
    Reachable Board.new ∧ Board.new.players.1 &&& Board.new.players.2 = 0 :=
  ⟨Reachable.base, (claim_C8 Board.new Reachable.base).1⟩

/-- C9: `legal_moves` yields, in strictly increasing column order, exactly
the columns with `has_space`, hence at most WIDTH elements; on the empty
board it yields columns 0 through 6 and `has_space` holds for all of them. -/
theorem claim_C9 :
    (∀ b : Board,
      b.legal_moves = (List.range WIDTH).filter (fun c => b.has_space c) ∧
        (∀ c, c ∈ b.legal_moves ↔ c < WIDTH ∧ b.has_space c = true) ∧
        List.Pairwise (· < ·) b.legal_moves ∧
        b.legal_moves.length ≤ WIDTH) ∧
      Board.new.legal_moves = [0, 1, 2, 3, 4, 5, 6] ∧
      (∀ c, c < WIDTH → Board.new.has_space c = true) := by
  refine ⟨?_, by decide, by decide⟩
  intro b
  exact ⟨legal_moves_eq_filter b, mem_legal_moves b, legal_moves_sorted b,
    legal_moves_length_le b⟩

theorem claim_C9_witness :
    Board.new.legal_moves =
      (List.range WIDTH).filter (fun c => Board.new.has_space c) :=
  (claim_C9.1 Board.new).1

/-- C10: after a legal `make_move` followed by `undo_move`, the fields
`players`, `heights` and `ply` hold their exact pre-move values, so every
public observation is unchanged, even though the move-history entry written
at the undone ply is not reset and retains the played column. -/
theorem claim_C10 (b : Board) (c : Nat) (hr : Reachable b) (hc : c < WIDTH)
    (hs : b.has_space c = true) :
    ((b.make_move c).undo_move).players = b.players ∧
      ((b.make_move c).undo_move).heights = b.heights ∧
      ((b.make_move c).undo_move).ply = b.ply ∧
      ((b.make_move c).undo_move).current_player = b.current_player ∧
      (∀ row column, ((b.make_move c).undo_move).token_at row column =
        b.token_at row column) ∧
      (∀ column, ((b.make_move c).undo_move).has_space column =
        b.has_space column) ∧
      ((b.make_move c).undo_move).legal_moves = b.legal_moves ∧
      ((b.make_move c).undo_move).winner = b.winner ∧
      ((b.make_move c).undo_move).position_code = b.position_code ∧
      ((b.make_move c).undo_move).moves.getD b.ply 0 = c := by
  have hb := reachable_inv hr
  rw [make_undo hb hc hs]
  refine ⟨rfl, rfl, rfl, rfl, fun row column => rfl, fun column => rfl, rfl, rfl,
    rfl, ?_⟩
  show (b.moves.set b.ply c).getD b.ply 0 = c
  exact getD_set_self _ _ _ (by rw [hb.mlen]; exact ply_lt_of_has_space hb hc hs)

theorem claim_C10_witness :
    Reachable Board.new ∧ (3 < WIDTH) ∧ Board.new.has_space 3 = true ∧
      ((Board.new.make_move 3).undo_move).moves.getD Board.new.ply 0 = 3 :=
  ⟨Reachable.base, by decide, by decide,
    (claim_C10 Board.new 3 Reachable.base (by decide) (by decide)).2.2.2.2.2.2.2.2.2⟩

end C4

namespace C4

/-! ### The root loop of decide_move as an argmax over per-column scores -/

/-- The per-column root scores, with the transposition table threaded through
the searches exactly as `decide_move` does. -/
def rootValues (depth : Nat) (board : Board) (token : Token) :
    List Nat → TTable → List (Nat × Int)
  | [], _ => []
  | c :: rest, tt =>
    let r := negamax depth tt (board.make_move c) I32_MIN I32_MAX token.opponent
    (c, satNeg r.1) :: rootValues depth board token rest r.2

/-- The transposition table after the root loop. -/
def rootTT (depth : Nat) (board : Board) (token : Token) :
    List Nat → TTable → TTable
  | [], tt => tt
  | c :: rest, tt =>
    rootTT depth board token rest
      (negamax depth tt (board.make_move c) I32_MIN I32_MAX token.opponent).2

/-- The pure argmax accumulation underlying the root loop. -/
def argmaxFold : List (Nat × Int) → List Nat → Int → List Nat × Int
  | [], best, vb => (best, vb)
  | q :: rest, best, vb =>
    if q.2 = vb then argmaxFold rest (best ++ [q.1]) vb
    else if vb < q.2 then argmaxFold rest [q.1] q.2
    else argmaxFold rest best vb

theorem satSub_eq_zero_iff (x y : Int) : satSub x y = 0 ↔ x = y := by
  unfold satSub i32clamp I32_MIN I32_MAX
  omega

theorem satSub_neg_iff (x y : Int) : satSub x y < 0 ↔ x < y := by
  unfold satSub i32clamp I32_MIN I32_MAX
  omega

theorem satNeg_ge_MIN (x : Int) : I32_MIN ≤ satNeg x := le_max_left _ _

theorem decideLoop_eq_argmax (depth : Nat) (board : Board) (token : Token) :
    ∀ (l : List Nat) (tt : TTable) (best : List Nat) (vb : Int),
      decideLoop depth board token l tt best vb =
        (rootTT depth board token l tt,
          argmaxFold (rootValues depth board token l tt) best vb) := by
  intro l
  induction l with
  | nil => intro tt best vb; rfl
  | cons c rest ih =>
    intro tt best vb
    rw [decideLoop, rootValues, rootTT]
    by_cases h0 : satSub vb
        (satNeg (negamax depth tt (board.make_move c) I32_MIN I32_MAX token.opponent).1) = 0
    · rw [if_pos h0, ih]
      rw [satSub_eq_zero_iff] at h0
      rw [argmaxFold, if_pos h0.symm]
    · rw [if_neg h0]
      by_cases h1 : satSub vb
          (satNeg (negamax depth tt (board.make_move c) I32_MIN I32_MAX token.opponent).1) < 0
      · rw [if_pos h1, ih]
        rw [satSub_neg_iff] at h1
        rw [satSub_eq_zero_iff] at h0
        rw [argmaxFold, if_neg (fun he => h0 he.symm), if_pos h1]
      · rw [if_neg h1, ih]
        rw [satSub_neg_iff] at h1
        rw [satSub_eq_zero_iff] at h0
        rw [argmaxFold, if_neg (fun he => h0 he.symm), if_neg h1]

theorem argmax_ge : ∀ (S : List (Nat × Int)) (best : List Nat) (vb : Int),
    vb ≤ (argmaxFold S best vb).2 ∧ ∀ q ∈ S, q.2 ≤ (argmaxFold S best vb).2 := by
  intro S
  induction S with
  | nil => intro best vb; exact ⟨le_refl _, fun q hq => absurd hq (List.not_mem_nil q)⟩
  | cons q rest ih =>
    intro best vb
    rw [argmaxFold]
    by_cases h0 : q.2 = vb
    · rw [if_pos h0]
      refine ⟨(ih _ vb).1, fun r hr => ?_⟩
      rcases List.mem_cons.mp hr with he | hm
      · rw [he, h0]
        exact (ih _ vb).1
      · exact (ih _ vb).2 r hm
    · rw [if_neg h0]
      by_cases h1 : vb < q.2
      · rw [if_pos h1]
        refine ⟨le_trans (le_of_lt h1) (ih _ q.2).1, fun r hr => ?_⟩
        rcases List.mem_cons.mp hr with he | hm
        · rw [he]
          exact (ih _ q.2).1
        · exact (ih _ q.2).2 r hm
      · rw [if_neg h1]
        refine ⟨(ih best vb).1, fun r hr => ?_⟩
        rcases List.mem_cons.mp hr with he | hm
        · rw [he]
          exact le_trans (by omega) (ih best vb).1
        · exact (ih best vb).2 r hm

theorem argmax_mem : ∀ (S : List (Nat × Int)) (best : List Nat) (vb : Int),
    ∀ m ∈ (argmaxFold S best vb).1,
      (m ∈ best ∧ (argmaxFold S best vb).2 = vb) ∨
        (m, (argmaxFold S best vb).2) ∈ S := by
  intro S
  induction S with
  | nil =>
    intro best vb m hm
    exact Or.inl ⟨hm, rfl⟩
  | cons q rest ih =>
    intro best vb m hm
    rw [argmaxFold] at hm ⊢
    by_cases h0 : q.2 = vb
    · rw [if_pos h0] at hm ⊢
      rcases ih _ vb m hm with ⟨hb, hv⟩ | hs
      · rcases List.mem_append.mp hb with hb' | hb'
        · exact Or.inl ⟨hb', hv⟩
        · refine Or.inr (List.mem_cons.mpr (Or.inl ?_))
          have : m = q.1 := by simpa using hb'
          subst this
          rw [hv, ← h0]
      · exact Or.inr (List.mem_cons.mpr (Or.inr hs))
    · rw [if_neg h0] at hm ⊢
      by_cases h1 : vb < q.2
      · rw [if_pos h1] at hm ⊢
        rcases ih _ q.2 m hm with ⟨hb, hv⟩ | hs
        · have : m = q.1 := by simpa using hb
          subst this
          refine Or.inr (List.mem_cons.mpr (Or.inl ?_))
          rw [hv]
        · exact Or.inr (List.mem_cons.mpr (Or.inr hs))
      · rw [if_neg h1] at hm ⊢
        rcases ih best vb m hm with ⟨hb, hv⟩ | hs
        · exact Or.inl ⟨hb, hv⟩
        · exact Or.inr (List.mem_cons.mpr (Or.inr hs))

theorem argmax_nonempty : ∀ (S : List (Nat × Int)) (best : List Nat) (vb : Int),
    (best ≠ [] ∨ (S ≠ [] ∧ ∀ q ∈ S, vb ≤ q.2)) →
      (argmaxFold S best vb).1 ≠ [] := by
  intro S
  induction S with
  | nil =>
    intro best vb h
    rcases h with hb | ⟨hs, _⟩
    · exact hb
    · exact absurd rfl hs
  | cons q rest ih =>
    intro best vb h
    rw [argmaxFold]
    by_cases h0 : q.2 = vb
    · rw [if_pos h0]
      exact ih _ vb (Or.inl (by simp))
    · rw [if_neg h0]
      by_cases h1 : vb < q.2
      · rw [if_pos h1]
        exact ih _ q.2 (Or.inl (by simp))
      · rw [if_neg h1]
        rcases h with hb | ⟨_, hq⟩
        · exact ih best vb (Or.inl hb)
        · exact absurd (hq q (List.mem_cons_self q rest)) (by omega)

theorem rootValues_mem (depth : Nat) (board : Board) (token : Token) :
    ∀ (l : List Nat) (tt : TTable) (q : Nat × Int),
      q ∈ rootValues depth board token l tt → q.1 ∈ l := by
  intro l
  induction l with
  | nil => intro tt q hq; exact absurd hq (List.not_mem_nil q)
  | cons c rest ih =>
    intro tt q hq
    rw [rootValues] at hq
    rcases List.mem_cons.mp hq with he | hm
    · subst he
      exact List.mem_cons_self c rest
    · exact List.mem_cons_of_mem c (ih _ q hm)

theorem rootValues_nil_iff (depth : Nat) (board : Board) (token : Token) :
    ∀ (l : List Nat) (tt : TTable),
      rootValues depth board token l tt = [] ↔ l = [] := by
  intro l tt
  cases l with
  | nil => simp [rootValues]
  | cons c rest => simp [rootValues]

theorem rootValues_ge_MIN (depth : Nat) (board : Board) (token : Token) :
    ∀ (l : List Nat) (tt : TTable) (q : Nat × Int),
      q ∈ rootValues depth board token l tt → I32_MIN ≤ q.2 := by
  intro l
  induction l with
  | nil => intro tt q hq; exact absurd hq (List.not_mem_nil q)
  | cons c rest ih =>
    intro tt q hq
    rw [rootValues] at hq
    rcases List.mem_cons.mp hq with he | hm
    · subst he
      exact satNeg_ge_MIN _
    · exact ih _ q hm

end C4

namespace C4

theorem getD_mem (l : List Nat) (i : Nat) (h : i < l.length) : l.getD i 0 ∈ l := by
  rw [List.getD_eq_getElem?_getD, List.getElem?_eq_getElem h]
  exact List.getElem_mem h

theorem argmax_single (c : Nat) (v : Int) (h : I32_MIN ≤ v) :
    (argmaxFold [(c, v)] [] I32_MIN).1 = [c] := by
  rw [argmaxFold]
  by_cases h0 : ((c, v) : Nat × Int).2 = I32_MIN
  · rw [if_pos h0]
    rfl
  · rw [if_neg h0]
    have h2 : I32_MIN < ((c, v) : Nat × Int).2 := by
      show I32_MIN < v
      have h0' : ¬(v = I32_MIN) := by simpa using h0
      omega
    rw [if_pos h2]
    rfl

/-- C4: `decide_move` fails fatally (modelled as `none`) exactly when the
Position has no legal moves; otherwise it returns a legal column whose root
score (the negated negamax value of the position after the move, searched at
the configured depth from the opponent's perspective with the table threaded
through the root loop) equals the maximum root score; and when exactly one
root move is legal, that move is returned. -/
theorem claim_C4 (p : AIPlayer) (board : Board) (token : Token) (pick : Nat) :
    ((p.decide_move board token pick).1 = none ↔ board.legal_moves = []) ∧
      (∀ c, (p.decide_move board token pick).1 = some c →
        board.is_legal c = true ∧
          ∃ v, (c, v) ∈ rootValues p.depth board token board.legal_moves p.ttable ∧
            ∀ q ∈ rootValues p.depth board token board.legal_moves p.ttable,
              q.2 ≤ v) ∧
      (∀ c, board.legal_moves = [c] →
        (p.decide_move board token pick).1 = some c) := by
  have hdm : (p.decide_move board token pick).1 = match (argmaxFold
      (rootValues p.depth board token board.legal_moves p.ttable) [] I32_MIN).1 with
    | [] => (none : Option Nat)
    | [c] => some c
    | best => some (best.getD (pick % best.length) 0) := by
    rw [AIPlayer.decide_move, decideLoop_eq_argmax]
    dsimp only []
    cases (argmaxFold
        (rootValues p.depth board token board.legal_moves p.ttable) [] I32_MIN).1 with
    | nil => rfl
    | cons x rest => cases rest <;> rfl
  generalize hbest : (argmaxFold
    (rootValues p.depth board token board.legal_moves p.ttable) [] I32_MIN).1 = best at hdm
  refine ⟨?_, ?_, ?_⟩
  · constructor
    · intro hnone
      rw [hdm] at hnone
      by_contra hne
      have hSne : rootValues p.depth board token board.legal_moves p.ttable ≠ [] := by
        intro he
        exact hne ((rootValues_nil_iff p.depth board token board.legal_moves p.ttable).mp he)
      have hbne : best ≠ [] := by
        rw [← hbest]
        exact argmax_nonempty _ _ _ (Or.inr ⟨hSne,
          fun q hq => rootValues_ge_MIN p.depth board token _ _ q hq⟩)
      cases hb : best with
      | nil => exact hbne hb
      | cons c rest =>
        rw [hb] at hnone
        cases rest <;> simp at hnone
    · intro hleg
      have hS : rootValues p.depth board token board.legal_moves p.ttable = [] := by
        rw [hleg]
        rfl
      rw [hS] at hbest
      rw [hdm, ← hbest]
      rfl
  · intro c hc
    have hcb : c ∈ best := by
      rw [hdm] at hc
      cases hb : best with
      | nil => rw [hb] at hc; simp at hc
      | cons x rest =>
        rw [hb] at hc
        cases hr : rest with
        | nil =>
          rw [hr] at hc
          simp at hc
          rw [hc]
          exact List.mem_cons_self _ _
        | cons y rest2 =>
          rw [hr] at hc
          simp at hc
          rw [← hc]
          have hlt : pick % (rest2.length + 1 + 1) < (x :: y :: rest2).length := by
            have h2 : pick % (rest2.length + 1 + 1) < rest2.length + 1 + 1 :=
              Nat.mod_lt _ (by omega)
            simpa using h2
          rw [← List.getD_eq_getElem?_getD]
          exact getD_mem _ _ hlt
    rcases argmax_mem _ [] I32_MIN c (hbest ▸ hcb) with ⟨habs, _⟩ | hmem
    · exact absurd habs (List.not_mem_nil c)
    · have hcl : c ∈ board.legal_moves := rootValues_mem p.depth board token _ _ _ hmem
      have hleg := (mem_legal_moves board c).mp hcl
      constructor
      · rw [Board.is_legal, hleg.2]
        simp [hleg.1]
      · exact ⟨_, hmem, (argmax_ge _ [] I32_MIN).2⟩
  · intro c hleg
    have hS : rootValues p.depth board token board.legal_moves p.ttable
        = [(c, satNeg (negamax p.depth p.ttable (board.make_move c)
            I32_MIN I32_MAX token.opponent).1)] := by
      rw [hleg, rootValues, rootValues]
    rw [hS] at hbest
    rw [hdm, ← hbest, argmax_single _ _ (satNeg_ge_MIN _)]

end C4

namespace C4

/-- A legal 39-move filling sequence: columns 0-5 are filled completely in a
pattern with no four-in-a-line, then three tokens go into column 6. -/
def fillSeq : List Nat :=
  [0, 1, 0, 1, 1, 0, 1, 0, 0, 1, 0, 1,
   2, 3, 2, 3, 3, 2, 3, 2, 2, 3, 2, 3,
   4, 5, 4, 5, 5, 4, 5, 4, 4, 5, 4, 5,
   6, 6, 6]

/-- The position after `fillSeq`: only column 6 still has space. -/
def nearFullBoard : Board := fillSeq.foldl Board.make_move Board.new

theorem claim_C4_witness :
    nearFullBoard.legal_moves = [6] ∧
      ((AIPlayer.new Difficulty.Easy).decide_move nearFullBoard Token.Player2 0).1 =
        some 6 :=
  ⟨by decide,
    (claim_C4 (AIPlayer.new Difficulty.Easy) nearFullBoard Token.Player2 0).2.2 6
      (by decide)⟩

/-- C5 counterexample: the transposition table outlives the decision.  After
one `decide_move` call on a freshly constructed `AIPlayer` the table in the
player state is not empty, so the entries created during the decision are not
discarded and are visible at the start of the next call (the next call reads
the same `ttable` field). -/
theorem claim_C5_counterexample :
    (AIPlayer.new Difficulty.Easy).ttable = [] ∧
      ((AIPlayer.new Difficulty.Easy).decide_move nearFullBoard
        Token.Player2 0).2.ttable ≠ [] :=
  ⟨rfl, by decide⟩

theorem nmLoop_tt_mono (nm : TTable → Board → Int → Int → Token → Int × TTable)
    (hnm : ∀ tt b a bb s q, q ∈ tt → q ∈ (nm tt b a bb s).2) (b : Board)
    (side : Token) (bb : Int) :
    ∀ (l : List Nat) (tt : TTable) (value a : Int) (q : Nat × TTEntry),
      q ∈ tt → q ∈ (nmLoop nm b side bb l tt value a).2 := by
  intro l
  induction l with
  | nil => intro tt value a q hq; exact hq
  | cons c rest ih =>
    intro tt value a q hq
    rw [nmLoop]
    by_cases hcut : bb ≤ max a (max value
        (satNeg (nm tt (b.make_move c) (satNeg bb) (satNeg a) side.opponent).1))
    · rw [if_pos hcut]
      exact hnm _ _ _ _ _ q hq
    · rw [if_neg hcut]
      exact ih _ _ _ q (hnm _ _ _ _ _ q hq)

theorem nmMain_tt_mono (prev : TTable → Board → Int → Int → Token → Int × TTable)
    (hprev : ∀ tt b a bb s q, q ∈ tt → q ∈ (prev tt b a bb s).2) :
    ∀ (depth : Nat) (tt : TTable) (b : Board) (a0 a bb : Int) (side : Token)
      (q : Nat × TTEntry), q ∈ tt → q ∈ (nmMain prev depth tt b a0 a bb side).2 := by
  intro depth tt b a0 a bb side q hq
  match depth with
  | 0 => exact hq
  | d + 1 =>
    rw [nmMain]
    by_cases ht : (b.winner.isSome || b.legal_moves.isEmpty) = true
    · rw [if_pos ht]
      exact hq
    · rw [if_neg ht]
      exact List.mem_cons_of_mem _ (nmLoop_tt_mono prev hprev b side bb _ _ _ _ q hq)

theorem negamax_tt_mono : ∀ (d : Nat) (tt : TTable) (b : Board) (a bb : Int)
    (side : Token) (q : Nat × TTEntry), q ∈ tt → q ∈ (negamax d tt b a bb side).2 := by
  intro d
  induction d with
  | zero =>
    intro tt b a bb side q hq
    rw [negamax]
    repeat' split
    all_goals try simp only []
    repeat' split
    all_goals exact hq
  | succ d ih =>
    intro tt b a bb side q hq
    rw [negamax]
    repeat' split
    all_goals try simp only []
    repeat' split
    all_goals first
      | exact hq
      | exact nmMain_tt_mono _ ih (d + 1) _ _ _ _ _ _ q hq

theorem decideLoop_tt_mono (depth : Nat) (board : Board) (token : Token) :
    ∀ (l : List Nat) (tt : TTable) (best : List Nat) (vb : Int) (q : Nat × TTEntry),
      q ∈ tt → q ∈ (decideLoop depth board token l tt best vb).1 := by
  intro l
  induction l with
  | nil => intro tt best vb q hq; exact hq
  | cons c rest ih =>
    intro tt best vb q hq
    rw [decideLoop]
    have hq' : q ∈ (negamax depth tt (board.make_move c)
        I32_MIN I32_MAX token.opponent).2 := negamax_tt_mono _ _ _ _ _ _ q hq
    by_cases h0 : satSub vb
        (satNeg (negamax depth tt (board.make_move c) I32_MIN I32_MAX token.opponent).1) = 0
    · rw [if_pos h0]
      exact ih _ _ _ q hq'
    · rw [if_neg h0]
      by_cases h1 : satSub vb
          (satNeg (negamax depth tt (board.make_move c) I32_MIN I32_MAX token.opponent).1) < 0
      · rw [if_pos h1]
        exact ih _ _ _ q hq'
      · rw [if_neg h1]
        exact ih _ _ _ q hq'

/-- C5 (amended): the transposition table is created with no entries when the
`AIPlayer` is constructed, but it persists across decisions: `decide_move`
only ever adds entries, so every entry present at the start of a call is
still present in the player state afterwards (and hence at the start of any
later `decide_move` call on the same player). -/
theorem claim_C5 :
    (∀ d : Difficulty, (AIPlayer.new d).ttable = []) ∧
      (∀ (p : AIPlayer) (board : Board) (token : Token) (pick : Nat)
        (q : Nat × TTEntry), q ∈ p.ttable →
          q ∈ ((p.decide_move board token pick).2).ttable) := by
  refine ⟨fun d => rfl, ?_⟩
  intro p board token pick q hq
  have hmono := decideLoop_tt_mono p.depth board token board.legal_moves p.ttable
    [] I32_MIN q hq
  rw [AIPlayer.decide_move]
  cases (decideLoop p.depth board token board.legal_moves p.ttable [] I32_MIN).2.1 with
  | nil => exact hmono
  | cons x rest => cases rest <;> exact hmono

theorem claim_C5_witness :
    ((99 : Nat), (⟨0, 0, TTFlag.Exact⟩ : TTEntry)) ∈
        (AIPlayer.mk 3 [(99, ⟨0, 0, TTFlag.Exact⟩)]).ttable ∧
      ((99 : Nat), (⟨0, 0, TTFlag.Exact⟩ : TTEntry)) ∈
        (((AIPlayer.mk 3 [(99, ⟨0, 0, TTFlag.Exact⟩)]).decide_move nearFullBoard
          Token.Player2 0).2).ttable :=
  ⟨List.mem_cons_self _ _,
    claim_C5.2 (AIPlayer.mk 3 [(99, ⟨0, 0, TTFlag.Exact⟩)]) nearFullBoard
      Token.Player2 0 _ (List.mem_cons_self _ _)⟩

end C4

namespace C4

/-! ### The search value does not depend on the move-history array -/

theorem token_at_moves (b : Board) (m : List Nat) (r c : Nat) :
    ({ b with moves := m } : Board).token_at r c = b.token_at r c := rfl

theorem winner_moves (b : Board) (m : List Nat) :
    ({ b with moves := m } : Board).winner = b.winner := rfl

theorem legal_moves_moves (b : Board) (m : List Nat) :
    ({ b with moves := m } : Board).legal_moves = b.legal_moves := rfl

theorem make_move_moves_upd (b : Board) (m : List Nat) (c : Nat) :
    ({ b with moves := m } : Board).make_move c =
      { b.make_move c with moves := m.set b.ply c } := rfl

theorem getLengthAux_moves (b : Board) (m : List Nat) (side : Token) (di dj : Int) :
    ∀ (fuel : Nat) (row column : Int),
      getLengthAux { b with moves := m } side di dj fuel row column =
        getLengthAux b side di dj fuel row column := by
  intro fuel
  induction fuel with
  | zero => intro row column; rfl
  | succ n ih =>
    intro row column
    rw [getLengthAux, getLengthAux, token_at_moves]
    simp only [ih]

theorem get_length_moves (b : Board) (m : List Nat) (pos : Nat × Nat)
    (dir : Int × Int) (side : Token) :
    get_length { b with moves := m } pos dir side = get_length b pos dir side := by
  unfold get_length
  rw [getLengthAux_moves, getLengthAux_moves]

theorem foldl_congr_fun {α β : Type} (l : List α) (f g : β → α → β)
    (h : ∀ acc x, f acc x = g acc x) : ∀ init, l.foldl f init = l.foldl g init := by
  induction l with
  | nil => intro init; rfl
  | cons x xs ih =>
    intro init
    rw [List.foldl_cons, List.foldl_cons, h, ih]

theorem dirStep_moves (b : Board) (m : List Nat) (side : Token) (row column : Nat)
    (token : Token) (acc : Int) (d : Int × Int) :
    dirStep { b with moves := m } side row column token acc d =
      dirStep b side row column token acc d := by
  unfold dirStep
  simp only [get_length_moves]

theorem dirTerm_moves (b : Board) (m : List Nat) (side : Token) (row column : Nat)
    (token : Token) (d : Int × Int) :
    dirTerm { b with moves := m } side row column token d =
      dirTerm b side row column token d := by
  unfold dirTerm
  simp only [get_length_moves]

theorem cellTerm_moves (b : Board) (m : List Nat) (side : Token) (column row : Nat) :
    cellTerm { b with moves := m } side column row = cellTerm b side column row := by
  unfold cellTerm
  rw [token_at_moves]
  cases b.token_at row column with
  | some token =>
    simp only []
    rw [List.map_congr_left (fun d _ => dirTerm_moves b m side row column token d)]
  | none => rfl

theorem columnTerm_moves (b : Board) (m : List Nat) (side : Token) (column : Nat) :
    columnTerm { b with moves := m } side column = columnTerm b side column := by
  unfold columnTerm
  rw [List.map_congr_left (fun row _ => cellTerm_moves b m side column row)]

theorem heuristic_value_moves (b : Board) (m : List Nat) (side : Token)
    (w : Option Token) (f : Bool) :
    heuristic_value { b with moves := m } side w f = heuristic_value b side w f := by
  cases w with
  | some t => simp [heuristic_value]
  | none =>
    cases f with
    | true => simp [heuristic_value]
    | false =>
      rw [heuristic_value_sum, heuristic_value_sum]
      rw [List.map_congr_left (fun column _ => columnTerm_moves b m side column)]

theorem hval_moves (b : Board) (m : List Nat) (side : Token) :
    hval { b with moves := m } side = hval b side := by
  unfold hval
  rw [heuristic_value_moves, winner_moves, legal_moves_moves]

theorem minimax_moves : ∀ (d : Nat) (b : Board) (m : List Nat) (side : Token),
    minimax d { b with moves := m } side = minimax d b side := by
  intro d
  induction d with
  | zero => intro b m side; exact hval_moves b m side
  | succ n ih =>
    intro b m side
    rw [minimax, minimax, winner_moves, legal_moves_moves]
    by_cases ht : (b.winner.isSome || b.legal_moves.isEmpty) = true
    · rw [if_pos ht, if_pos ht]
      exact hval_moves b m side
    · rw [if_neg ht, if_neg ht]
      apply foldl_congr_fun
      intro acc c
      rw [make_move_moves_upd, ih]

theorem minimax_congr {b1 b2 : Board} (hp : b1.players = b2.players)
    (hh : b1.heights = b2.heights) (hy : b1.ply = b2.ply) (d : Nat) (s : Token) :
    minimax d b1 s = minimax d b2 s := by
  have hb : b2 = { b1 with moves := b2.moves } := by
    cases b1
    cases b2
    simp only [] at hp hh hy
    subst hp
    subst hh
    subst hy
    rfl
  rw [hb]
  exact (minimax_moves d b1 b2.moves s).symm

end C4

namespace C4

/-! ### Soundness of negamax with alpha-beta and the transposition table -/

theorem opponent_opponent (t : Token) : t.opponent.opponent = t := by
  cases t <;> rfl

/-- The side to move at `b`, anchored so that player `t` moves at even ply. -/
def sideAt (t : Token) (b : Board) : Token :=
  if b.ply % 2 = 0 then t else t.opponent

theorem sideAt_make (t : Token) (b : Board) (c : Nat) :
    sideAt t (b.make_move c) = (sideAt t b).opponent := by
  unfold sideAt
  rw [make_move_ply]
  rcases Nat.mod_two_eq_zero_or_one b.ply with hp | hp
  · rw [if_pos hp, if_neg (show ¬((b.ply + 1) % 2 = 0) by omega)]
  · rw [if_neg (show ¬(b.ply % 2 = 0) by omega),
      if_pos (show (b.ply + 1) % 2 = 0 by omega), opponent_opponent]

/-- What a table entry asserts about the true fixed-depth search value. -/
def boundOK (e : TTEntry) (m : Int) : Prop :=
  match e.flag with
  | TTFlag.Exact => e.value = m
  | TTFlag.Lowerbound => e.value ≤ m
  | TTFlag.Upperbound => m ≤ e.value

/-- Table invariant: every entry belongs to an invariant-satisfying board at
the depth dictated by `K = depth + ply`, with a value that is a sound
bound/exact value of the reference minimax at that depth and side. -/
def TTOk (K : Nat) (t : Token) (tt : TTable) : Prop :=
  ∀ q ∈ tt, ∃ b : Board, BoardInv b ∧ q.1 = b.position_code ∧
    q.2.depth + b.ply = K ∧ |q.2.value| ≤ HB ∧
    boundOK q.2 (minimax q.2.depth b (sideAt t b))

/-- The alpha arguments arising in the search. -/
def LoW (a : Int) : Prop := a = I32_MIN ∨ a = I32_MIN + 1 ∨ |a| ≤ HB

/-- The beta arguments arising in the search. -/
def HiW (b : Int) : Prop := b = I32_MAX ∨ |b| ≤ HB

/-- The fail-soft guarantee of a search value `v` for true value `m` in
window `(a, bb)`. -/
def nmOK (a bb m v : Int) : Prop :=
  |v| ≤ HB ∧ (v ≤ a → m ≤ v) ∧ (bb ≤ v → v ≤ m) ∧ (a < v → v < bb → v = m)

theorem ttGet_mem : ∀ (tt : TTable) (k : Nat) (e : TTEntry),
    ttGet tt k = some e → (k, e) ∈ tt := by
  intro tt
  induction tt with
  | nil => intro k e h; exact absurd h (by simp [ttGet])
  | cons p rest ih =>
    intro k e h
    rw [ttGet] at h
    by_cases hk : p.1 = k
    · rw [if_pos hk] at h
      have : p = (k, e) := by
        obtain ⟨p1, p2⟩ := p
        simp at hk h
        rw [hk, h]
      rw [← this]
      exact List.mem_cons_self p rest
    · rw [if_neg hk] at h
      exact List.mem_cons_of_mem p (ih k e h)

theorem satNeg_MAX : satNeg I32_MAX = I32_MIN + 1 := by decide

theorem LoW_le (a : Int) (h : LoW a) : I32_MIN ≤ a := by
  rcases h with h | h | h
  · omega
  · unfold I32_MIN at *
    omega
  · rw [abs_le] at h
    unfold I32_MIN HB at *
    omega

theorem HiW_le (b : Int) (h : HiW b) : b ≤ I32_MAX := by
  rcases h with h | h
  · omega
  · rw [abs_le] at h
    unfold I32_MAX HB at *
    omega

theorem window_flip {a bb : Int} (ha : LoW a) (hbb : HiW bb) (h : a < bb) :
    LoW (satNeg bb) ∧ HiW (satNeg a) ∧ satNeg bb < satNeg a := by
  rcases ha with ha | ha | ha <;> rcases hbb with hb | hb
  · subst ha; subst hb
    rw [satNeg_MIN, satNeg_MAX]
    exact ⟨Or.inr (Or.inl rfl), Or.inl rfl, by decide⟩
  · subst ha
    rw [satNeg_MIN, satNeg_eq hb]
    refine ⟨Or.inr (Or.inr (by rwa [abs_neg])), Or.inl rfl, ?_⟩
    rw [abs_le] at hb
    unfold I32_MAX HB at *
    omega
  · subst ha; subst hb
    rw [satNeg_MIN1, satNeg_MAX]
    exact ⟨Or.inr (Or.inl rfl), Or.inl rfl, by decide⟩
  · subst ha
    rw [satNeg_MIN1, satNeg_eq hb]
    refine ⟨Or.inr (Or.inr (by rwa [abs_neg])), Or.inl rfl, ?_⟩
    rw [abs_le] at hb
    unfold I32_MAX HB at *
    omega
  · subst hb
    rw [satNeg_MAX, satNeg_eq ha]
    refine ⟨Or.inr (Or.inl rfl), Or.inr (by rwa [abs_neg]), ?_⟩
    rw [abs_le] at ha
    unfold I32_MIN HB at *
    omega
  · rw [satNeg_eq ha, satNeg_eq hb]
    refine ⟨Or.inr (Or.inr (by rwa [abs_neg])), Or.inr (by rwa [abs_neg]), by omega⟩

theorem LoW_max_abs {a x : Int} (ha : LoW a) (hx : |x| ≤ HB) : LoW (max a x) := by
  rcases ha with ha | ha | ha
  · subst ha
    rw [max_eq_right (by rw [abs_le] at hx; unfold I32_MIN HB at *; omega)]
    exact Or.inr (Or.inr hx)
  · subst ha
    rw [max_eq_right (by rw [abs_le] at hx; unfold I32_MIN HB at *; omega)]
    exact Or.inr (Or.inr hx)
  · refine Or.inr (Or.inr ?_)
    rw [abs_le] at ha hx ⊢
    constructor
    · exact le_max_of_le_left ha.1
    · exact max_le ha.2 hx.2

theorem HiW_min_abs {b x : Int} (hb : HiW b) (hx : |x| ≤ HB) : HiW (min b x) := by
  rcases hb with hb | hb
  · subst hb
    rw [min_eq_right (by rw [abs_le] at hx; unfold I32_MAX HB at *; omega)]
    exact Or.inr hx
  · refine Or.inr ?_
    rw [abs_le] at hb hx ⊢
    constructor
    · exact le_min hb.1 hx.1
    · exact min_le_of_left_le hb.2

end C4

namespace C4

theorem MIN1_lt_negHB : I32_MIN + 1 < -HB := by decide

/-- Fail-soft soundness of the child loop of `negamax`.  `ih` is the
soundness of the depth-`d` search; the conclusions describe the loop result
relative to the reference fold over the remaining columns. -/
theorem nmLoop_sound (d : Nat) (t : Token) (K : Nat)
    (ih : ∀ (tt : TTable) (b : Board) (a bb : Int), BoardInv b → TTOk K t tt →
      d + b.ply = K → LoW a → HiW bb → a < bb →
      TTOk K t (negamax d tt b a bb (sideAt t b)).2 ∧
        nmOK a bb (minimax d b (sideAt t b)) (negamax d tt b a bb (sideAt t b)).1)
    (b : Board) (hb : BoardInv b) (hK : d + 1 + b.ply = K) (bb : Int)
    (hbbW : HiW bb) :
    ∀ (l : List Nat) (tt : TTable) (value a : Int),
      (∀ c ∈ l, c ∈ b.legal_moves) → TTOk K t tt → LoW a → a < bb →
      value < bb → value ≤ a → (value = I32_MIN ∨ |value| ≤ HB) →
      ∀ r, r = nmLoop (negamax d) b (sideAt t b) bb l tt value a →
      TTOk K t r.2 ∧ value ≤ r.1 ∧ (value = r.1 ∨ |r.1| ≤ HB) ∧
        ((bb ≤ r.1 ∧ r.1 ≤ l.foldl (fun v c => max v
            (satNeg (minimax d (b.make_move c) (sideAt t b).opponent))) value) ∨
          (r.1 < bb ∧
            l.foldl (fun v c => max v
              (satNeg (minimax d (b.make_move c) (sideAt t b).opponent))) value ≤ r.1 ∧
            r.1 ≤ max a (l.foldl (fun v c => max v
              (satNeg (minimax d (b.make_move c) (sideAt t b).opponent))) value))) := by
  intro l
  induction l with
  | nil =>
    intro tt value a hmem htt haW hab hvb hva hvHB r hr
    rw [nmLoop] at hr
    subst hr
    refine ⟨htt, le_refl _, Or.inl rfl, Or.inr ⟨hvb, le_refl _, le_max_right a value⟩⟩
  | cons c rest ihl =>
    intro tt value a hmem htt haW hab hvb hva hvHB r hr
    rw [nmLoop] at hr
    try simp only [] at hr
    have hcl : c ∈ b.legal_moves := hmem c (List.mem_cons_self c rest)
    have hcw := (mem_legal_moves b c).mp hcl
    have hbc : BoardInv (b.make_move c) := boardInv_make hb hcw.1 hcw.2
    have hKc : d + (b.make_move c).ply = K := by
      rw [make_move_ply]
      omega
    obtain ⟨hfw1, hfw2, hfw3⟩ := window_flip haW hbbW hab
    have hchild := ih tt (b.make_move c) (satNeg bb) (satNeg a) hbc htt hKc hfw1 hfw2 hfw3
    rw [sideAt_make] at hchild
    obtain ⟨httc, hnm⟩ := hchild
    unfold nmOK at hnm
    obtain ⟨hvcHB, hcj1, hcj2, hcj3⟩ := hnm
    have hmcHB := abs_minimax_le d (b.make_move c) (sideAt t b).opponent
    have hcand := satNeg_eq hvcHB
    have hwc := satNeg_eq hmcHB
    rw [List.foldl_cons]
    have hvalHB : |max value (satNeg (negamax d tt (b.make_move c)
        (satNeg bb) (satNeg a) (sideAt t b).opponent).1)| ≤ HB := by
      rw [hcand]
      rw [abs_le] at hvcHB ⊢
      rcases hvHB with hW | hW
      · rw [abs_le] at hmcHB
        unfold I32_MIN HB at *
        omega
      · rw [abs_le] at hW
        omega
    by_cases hcut : bb ≤ max a (max value (satNeg (negamax d tt (b.make_move c)
        (satNeg bb) (satNeg a) (sideAt t b).opponent).1))
    · rw [if_pos hcut] at hr
      subst hr
      have hvge : value < max value (satNeg (negamax d tt (b.make_move c)
          (satNeg bb) (satNeg a) (sideAt t b).opponent).1) := by
        omega
      have hcand_ge_bb : bb ≤ satNeg (negamax d tt (b.make_move c)
          (satNeg bb) (satNeg a) (sideAt t b).opponent).1 := by
        omega
      have hcc : satNeg (negamax d tt (b.make_move c)
          (satNeg bb) (satNeg a) (sideAt t b).opponent).1 ≤
            satNeg (minimax d (b.make_move c) (sideAt t b).opponent) := by
        rcases hbbW with hB | hB
        · exfalso
          rw [abs_le] at hvcHB
          rw [hcand] at hcand_ge_bb
          subst hB
          unfold I32_MAX HB at *
          omega
        · have hsb : satNeg bb = -bb := satNeg_eq hB
          have hlow : (negamax d tt (b.make_move c)
              (satNeg bb) (satNeg a) (sideAt t b).opponent).1 ≤ satNeg bb := by
            rw [hcand] at hcand_ge_bb
            omega
          have := hcj1 hlow
          rw [hcand, hwc]
          omega
      have hF : max value (satNeg (minimax d (b.make_move c)
          (sideAt t b).opponent)) ≤ rest.foldl (fun v c => max v
            (satNeg (minimax d (b.make_move c) (sideAt t b).opponent)))
            (max value (satNeg (minimax d (b.make_move c) (sideAt t b).opponent))) :=
        foldl_max_le_init _ rest _
      refine ⟨httc, le_max_left _ _, Or.inr hvalHB, Or.inl ⟨by omega, by omega⟩⟩
    · rw [if_neg hcut] at hr
      have hacut : max a (max value (satNeg (negamax d tt (b.make_move c)
          (satNeg bb) (satNeg a) (sideAt t b).opponent).1)) < bb := by omega
      have hres := ihl (negamax d tt (b.make_move c)
          (satNeg bb) (satNeg a) (sideAt t b).opponent).2
        (max value (satNeg (negamax d tt (b.make_move c)
          (satNeg bb) (satNeg a) (sideAt t b).opponent).1))
        (max a (max value (satNeg (negamax d tt (b.make_move c)
          (satNeg bb) (satNeg a) (sideAt t b).opponent).1)))
        (fun x hx => hmem x (List.mem_cons_of_mem c hx)) httc
        (LoW_max_abs haW hvalHB) hacut (by omega) (le_max_right _ _)
        (Or.inr hvalHB) r hr
      obtain ⟨hrtt, hrge, hrHB, hrdisj⟩ := hres
      have hrHB' : |r.1| ≤ HB := by
        rcases hrHB with hE | hE
        · rw [← hE]
          exact hvalHB
        · exact hE
      refine ⟨hrtt, by omega, Or.inr hrHB', ?_⟩
      -- relate the fold from value' to the fold from (max value childval)
      have habsorb := foldl_max_absorb (fun c => satNeg (minimax d (b.make_move c)
        (sideAt t b).opponent)) rest value
      have hrestF := foldl_max_le_init (fun c => satNeg (minimax d (b.make_move c)
        (sideAt t b).opponent)) rest value
      rcases le_or_lt (negamax d tt (b.make_move c)
          (satNeg bb) (satNeg a) (sideAt t b).opponent).1 (satNeg bb) with hLow | h1
      · exfalso
        rcases hbbW with hB | hB
        · have hs : satNeg bb = I32_MIN + 1 := by
            rw [hB]
            exact satNeg_MAX
          rw [abs_le] at hvcHB
          have := MIN1_lt_negHB
          omega
        · have hsb : satNeg bb = -bb := satNeg_eq hB
          rw [hcand] at hacut
          omega
      · rcases lt_or_le (negamax d tt (b.make_move c)
            (satNeg bb) (satNeg a) (sideAt t b).opponent).1 (satNeg a) with h2 | hHigh
        · -- exact child: its value equals the reference child value
          have hexact := hcj3 h1 h2
          rw [hexact] at hrdisj hrge
          rcases hrdisj with ⟨hc1, hc2⟩ | ⟨hc1, hc2, hc3⟩
          · exact Or.inl ⟨hc1, hc2⟩
          · refine Or.inr ⟨hc1, hc2, ?_⟩
            rw [habsorb] at hc3 hc2 ⊢
            omega
        · -- fail-high child: its value only bounds the reference from below
          have hvm := hcj2 hHigh
          have hcand_le_a : satNeg (negamax d tt (b.make_move c)
              (satNeg bb) (satNeg a) (sideAt t b).opponent).1 ≤ a := by
            rcases haW with hA | hA | hA
            · exfalso
              have hs : satNeg a = I32_MAX := by
                rw [hA]
                exact satNeg_MIN
              rw [abs_le] at hvcHB
              unfold I32_MAX HB at *
              omega
            · exfalso
              have hs : satNeg a = I32_MAX := by
                rw [hA]
                exact satNeg_MIN1
              rw [abs_le] at hvcHB
              unfold I32_MAX HB at *
              omega
            · have hs : satNeg a = -a := satNeg_eq hA
              rw [hcand]
              omega
          have hwc_le_cand : satNeg (minimax d (b.make_move c) (sideAt t b).opponent)
              ≤ satNeg (negamax d tt (b.make_move c)
                (satNeg bb) (satNeg a) (sideAt t b).opponent).1 := by
            rw [hcand, hwc]
            omega
          have habsorb2 := foldl_max_absorb (fun c => satNeg (minimax d (b.make_move c)
            (sideAt t b).opponent)) rest value
          -- fold from value' in absorbed form
          have hF'eq : rest.foldl (fun v c => max v (satNeg (minimax d (b.make_move c)
              (sideAt t b).opponent))) (max value (satNeg (negamax d tt (b.make_move c)
                (satNeg bb) (satNeg a) (sideAt t b).opponent).1))
              = max (rest.foldl (fun v c => max v (satNeg (minimax d (b.make_move c)
                (sideAt t b).opponent))) value) (satNeg (negamax d tt (b.make_move c)
                  (satNeg bb) (satNeg a) (sideAt t b).opponent).1) :=
            foldl_max_absorb _ rest value _
          rw [hF'eq] at hrdisj
          rw [habsorb]
          rcases hrdisj with ⟨hc1, hc2⟩ | ⟨hc1, hc2, hc3⟩
          · refine Or.inl ⟨hc1, ?_⟩
            omega
          · refine Or.inr ⟨hc1, by omega, ?_⟩
            omega

end C4

namespace C4

/-- The flag stored by `negamax` (`let flag = if value <= a_orig {...}`). -/
def nmFlag (a0 bb v : Int) : TTFlag :=
  if v ≤ a0 then TTFlag.Upperbound
  else if bb ≤ v then TTFlag.Lowerbound
  else TTFlag.Exact

theorem nmMain_zero (prev : TTable → Board → Int → Int → Token → Int × TTable)
    (tt : TTable) (b : Board) (a0 a bb : Int) (side : Token) :
    nmMain prev 0 tt b a0 a bb side = (hval b side, tt) := rfl

theorem nmMain_succ (prev : TTable → Board → Int → Int → Token → Int × TTable)
    (d : Nat) (tt : TTable) (b : Board) (a0 a bb : Int) (side : Token) :
    nmMain prev (d + 1) tt b a0 a bb side =
      if b.winner.isSome || b.legal_moves.isEmpty then (hval b side, tt)
      else
        ((nmLoop prev b side bb b.legal_moves tt I32_MIN a).1,
          ttInsert (nmLoop prev b side bb b.legal_moves tt I32_MIN a).2
            b.position_code
            ⟨d + 1, (nmLoop prev b side bb b.legal_moves tt I32_MIN a).1,
              nmFlag a0 bb
                (nmLoop prev b side bb b.legal_moves tt I32_MIN a).1⟩) := rfl

/-- Soundness of the post-probe body of `negamax` at depth `d + 1`:
window-relative correctness of the returned value and preservation of the
table invariant by the store, given soundness of the depth-`d` search and the
sandwich hypothesis `hA` recording what the probe proved about values in
`(a0, a]`. -/
theorem nmMain_sound (d : Nat) (t : Token) (K : Nat)
    (ih : ∀ (tt : TTable) (b : Board) (a bb : Int), BoardInv b → TTOk K t tt →
      d + b.ply = K → LoW a → HiW bb → a < bb →
      TTOk K t (negamax d tt b a bb (sideAt t b)).2 ∧
        nmOK a bb (minimax d b (sideAt t b)) (negamax d tt b a bb (sideAt t b)).1)
    (tt : TTable) (b : Board) (a0 a bb : Int)
    (hb : BoardInv b) (htt : TTOk K t tt) (hK : d + 1 + b.ply = K)
    (haW : LoW a) (hbbW : HiW bb) (h0a : a0 ≤ a) (hab : a < bb)
    (hA : ∀ x, a0 < x → x ≤ a → x ≤ minimax (d + 1) b (sideAt t b)) :
    TTOk K t (nmMain (negamax d) (d + 1) tt b a0 a bb (sideAt t b)).2 ∧
      nmOK a bb (minimax (d + 1) b (sideAt t b))
        (nmMain (negamax d) (d + 1) tt b a0 a bb (sideAt t b)).1 := by
  by_cases hterm : (b.winner.isSome || b.legal_moves.isEmpty) = true
  · rw [nmMain_succ, if_pos hterm]
    have hm : minimax (d + 1) b (sideAt t b) = hval b (sideAt t b) := by
      rw [minimax, if_pos hterm]
    refine ⟨htt, ?_⟩
    unfold nmOK
    rw [hm]
    exact ⟨abs_hval_le b (sideAt t b), fun _ => le_refl _, fun _ => le_refl _,
      fun _ _ => rfl⟩
  · rw [nmMain_succ, if_neg hterm]
    have hm : minimax (d + 1) b (sideAt t b) = b.legal_moves.foldl
        (fun v c => max v (satNeg (minimax d (b.make_move c) (sideAt t b).opponent)))
        I32_MIN := by
      rw [minimax, if_neg hterm]
    have hMINa : I32_MIN ≤ a := LoW_le a haW
    obtain ⟨htt2, hge, hHBd, hdisj⟩ := nmLoop_sound d t K ih b hb hK bb hbbW
      b.legal_moves tt I32_MIN a (fun c hc => hc) htt haW hab (by omega) hMINa
      (Or.inl rfl) (nmLoop (negamax d) b (sideAt t b) bb b.legal_moves tt I32_MIN a)
      rfl
    rw [← hm] at hdisj
    generalize hq : nmLoop (negamax d) b (sideAt t b) bb b.legal_moves tt I32_MIN a
      = q at htt2 hge hHBd hdisj ⊢
    have hmHB := abs_minimax_le (d + 1) b (sideAt t b)
    have h1 := MIN1_lt_negHB
    have hvHB : |q.1| ≤ HB := by
      rw [abs_le] at hmHB ⊢
      rcases hHBd with hE | hE
      · exfalso
        rcases hdisj with ⟨hc1, hc2⟩ | ⟨hc1, hc2, hc3⟩
        · omega
        · omega
      · rw [abs_le] at hE
        exact hE
    refine ⟨?_, ?_⟩
    · show TTOk K t (ttInsert q.2 b.position_code ⟨d + 1, q.1, nmFlag a0 bb q.1⟩)
      have hbOK : boundOK ⟨d + 1, q.1, nmFlag a0 bb q.1⟩
          (minimax (d + 1) b (sideAt t b)) := by
        unfold nmFlag
        by_cases hU : q.1 ≤ a0
        · rw [if_pos hU]
          show minimax (d + 1) b (sideAt t b) ≤ q.1
          rcases hdisj with ⟨hc1, hc2⟩ | ⟨hc1, hc2, hc3⟩ <;> omega
        · rw [if_neg hU]
          by_cases hL : bb ≤ q.1
          · rw [if_pos hL]
            show q.1 ≤ minimax (d + 1) b (sideAt t b)
            rcases hdisj with ⟨hc1, hc2⟩ | ⟨hc1, hc2, hc3⟩ <;> omega
          · rw [if_neg hL]
            show q.1 = minimax (d + 1) b (sideAt t b)
            rcases hdisj with ⟨hc1, hc2⟩ | ⟨hc1, hc2, hc3⟩
            · omega
            · by_cases hqa : q.1 ≤ a
              · have hx := hA q.1 (by omega) hqa
                omega
              · omega
      intro qq hqq
      have hqq2 : qq = (b.position_code,
          (⟨d + 1, q.1, nmFlag a0 bb q.1⟩ : TTEntry)) ∨ qq ∈ q.2 :=
        List.mem_cons.mp hqq
      rcases hqq2 with hnew | hold
      · refine ⟨b, hb, ?_, ?_, ?_, ?_⟩
        · rw [hnew]
        · rw [hnew]
          show d + 1 + b.ply = K
          exact hK
        · rw [hnew]
          exact hvHB
        · rw [hnew]
          exact hbOK
      · exact htt2 qq hold
    · show nmOK a bb (minimax (d + 1) b (sideAt t b)) q.1
      unfold nmOK
      refine ⟨hvHB, fun h => ?_, fun h => ?_, fun h2 h3 => ?_⟩
      · rcases hdisj with ⟨hc1, hc2⟩ | ⟨hc1, hc2, hc3⟩ <;> omega
      · rcases hdisj with ⟨hc1, hc2⟩ | ⟨hc1, hc2, hc3⟩ <;> omega
      · rcases hdisj with ⟨hc1, hc2⟩ | ⟨hc1, hc2, hc3⟩ <;> omega

end C4

namespace C4

/-- A successful probe at a position with invariant yields an entry whose
recorded depth is exactly the remaining depth (the position code determines
the ply), with a bound on the reference minimax of the probed board. -/
theorem probe_facts (dep : Nat) (t : Token) (K : Nat) (tt : TTable) (b : Board)
    (e : TTEntry) (hb : BoardInv b) (htt : TTOk K t tt) (hK : dep + b.ply = K)
    (hget : ttGet tt b.position_code = some e) :
    e.depth = dep ∧ |e.value| ≤ HB ∧ boundOK e (minimax dep b (sideAt t b)) := by
  have hmem := ttGet_mem tt b.position_code e hget
  obtain ⟨b', hb', hcode, hdep, hHB, hbOK⟩ := htt (b.position_code, e) hmem
  simp only [] at hcode hdep hHB hbOK
  have hinj := code_inj hb hb' hcode
  have hply : b.ply = b'.ply := hinj.2.2
  have hed : e.depth = dep := by omega
  have hside : sideAt t b' = sideAt t b := by
    unfold sideAt
    rw [hply]
  have hmm : minimax e.depth b' (sideAt t b') = minimax dep b (sideAt t b) := by
    rw [hed, hside]
    exact minimax_congr hinj.1.symm hinj.2.1.symm hply.symm dep (sideAt t b)
  rw [hmm] at hbOK
  exact ⟨hed, hHB, hbOK⟩

/-- Soundness of `negamax` with respect to the reference `minimax`: the
returned value is a fail-soft bound for its window, and the returned table
keeps the invariant. -/
theorem nm_sound (t : Token) (K : Nat) :
    ∀ (d : Nat) (tt : TTable) (b : Board) (a bb : Int), BoardInv b →
      TTOk K t tt → d + b.ply = K → LoW a → HiW bb → a < bb →
      TTOk K t (negamax d tt b a bb (sideAt t b)).2 ∧
        nmOK a bb (minimax d b (sideAt t b)) (negamax d tt b a bb (sideAt t b)).1 := by
  intro d
  induction d with
  | zero =>
    intro tt b a bb hb htt hK haW hbbW hab
    rw [negamax]
    cases hprobe : ttGet tt b.position_code with
    | none =>
      simp only []
      rw [nmMain_zero]
      refine ⟨htt, ?_⟩
      unfold nmOK
      exact ⟨abs_hval_le b (sideAt t b), fun _ => le_refl _, fun _ => le_refl _,
        fun _ _ => rfl⟩
    | some e =>
      simp only []
      obtain ⟨hed, heHB, hebOK⟩ := probe_facts 0 t K tt b e hb htt hK hprobe
      rw [if_pos (Nat.zero_le e.depth)]
      unfold boundOK at hebOK
      cases hf : e.flag with
      | Exact =>
        rw [hf] at hebOK
        simp only [] at hebOK
        simp only []
        refine ⟨htt, ?_⟩
        unfold nmOK
        exact ⟨heHB, fun _ => le_of_eq hebOK.symm, fun _ => le_of_eq hebOK,
          fun _ _ => hebOK⟩
      | Lowerbound =>
        rw [hf] at hebOK
        simp only [] at hebOK
        simp only []
        by_cases hcut : max a e.value ≥ bb
        · rw [if_pos hcut]
          refine ⟨htt, ?_⟩
          unfold nmOK
          refine ⟨heHB, fun h => ?_, fun _ => hebOK, fun h2 h3 => ?_⟩
          · exfalso
            omega
          · exfalso
            omega
        · rw [if_neg hcut]
          rw [nmMain_zero]
          refine ⟨htt, ?_⟩
          unfold nmOK
          exact ⟨abs_hval_le b (sideAt t b), fun _ => le_refl _, fun _ => le_refl _,
            fun _ _ => rfl⟩
      | Upperbound =>
        rw [hf] at hebOK
        simp only [] at hebOK
        simp only []
        by_cases hcut : a ≥ min bb e.value
        · rw [if_pos hcut]
          refine ⟨htt, ?_⟩
          unfold nmOK
          refine ⟨heHB, fun _ => hebOK, fun h => ?_, fun h2 h3 => ?_⟩
          · exfalso
            omega
          · exfalso
            omega
        · rw [if_neg hcut]
          rw [nmMain_zero]
          refine ⟨htt, ?_⟩
          unfold nmOK
          exact ⟨abs_hval_le b (sideAt t b), fun _ => le_refl _, fun _ => le_refl _,
            fun _ _ => rfl⟩
  | succ d ih =>
    intro tt b a bb hb htt hK haW hbbW hab
    rw [negamax]
    cases hprobe : ttGet tt b.position_code with
    | none =>
      simp only []
      exact nmMain_sound d t K ih tt b a a bb hb htt hK haW hbbW (le_refl a) hab
        (fun x h1 h2 => absurd h1 (not_lt.mpr h2))
    | some e =>
      simp only []
      obtain ⟨hed, heHB, hebOK⟩ := probe_facts (d + 1) t K tt b e hb htt hK hprobe
      have hdep : e.depth ≥ d + 1 := by omega
      rw [if_pos hdep]
      unfold boundOK at hebOK
      cases hf : e.flag with
      | Exact =>
        rw [hf] at hebOK
        simp only [] at hebOK
        simp only []
        refine ⟨htt, ?_⟩
        unfold nmOK
        exact ⟨heHB, fun _ => le_of_eq hebOK.symm, fun _ => le_of_eq hebOK,
          fun _ _ => hebOK⟩
      | Lowerbound =>
        rw [hf] at hebOK
        simp only [] at hebOK
        simp only []
        by_cases hcut : max a e.value ≥ bb
        · rw [if_pos hcut]
          refine ⟨htt, ?_⟩
          unfold nmOK
          refine ⟨heHB, fun h => ?_, fun _ => hebOK, fun h2 h3 => ?_⟩
          · exfalso
            omega
          · exfalso
            omega
        · rw [if_neg hcut]
          have hnc : max a e.value < bb := not_le.mp hcut
          have hmain := nmMain_sound d t K ih tt b a (max a e.value) bb hb htt hK
            (LoW_max_abs haW heHB) hbbW (le_max_left a e.value) hnc
            (fun x h1 h2 => le_trans (by omega) hebOK)
          obtain ⟨hmtt, hmok⟩ := hmain
          unfold nmOK at hmok
          obtain ⟨hvHB, hc1, hc2, hc3⟩ := hmok
          generalize hw : nmMain (negamax d) (d + 1) tt b a (max a e.value) bb
            (sideAt t b) = w at hmtt hvHB hc1 hc2 hc3 ⊢
          refine ⟨hmtt, ?_⟩
          unfold nmOK
          refine ⟨hvHB, fun h => hc1 (le_trans h (le_max_left a e.value)),
            fun h => hc2 h, fun h2 h3 => ?_⟩
          by_cases hva : w.1 ≤ max a e.value
          · have hm1 := hc1 hva
            have hxe : w.1 ≤ e.value := by omega
            have hm2 := le_trans hxe hebOK
            omega
          · exact hc3 (not_le.mp hva) h3
      | Upperbound =>
        rw [hf] at hebOK
        simp only [] at hebOK
        simp only []
        by_cases hcut : a ≥ min bb e.value
        · rw [if_pos hcut]
          refine ⟨htt, ?_⟩
          unfold nmOK
          refine ⟨heHB, fun _ => hebOK, fun h => ?_, fun h2 h3 => ?_⟩
          · exfalso
            omega
          · exfalso
            omega
        · rw [if_neg hcut]
          have hnc : a < min bb e.value := not_le.mp hcut
          have hmain := nmMain_sound d t K ih tt b a a (min bb e.value) hb htt hK
            haW (HiW_min_abs hbbW heHB) (le_refl a) hnc
            (fun x h1 h2 => absurd h1 (not_lt.mpr h2))
          obtain ⟨hmtt, hmok⟩ := hmain
          unfold nmOK at hmok
          obtain ⟨hvHB, hc1, hc2, hc3⟩ := hmok
          generalize hw : nmMain (negamax d) (d + 1) tt b a a (min bb e.value)
            (sideAt t b) = w at hmtt hvHB hc1 hc2 hc3 ⊢
          refine ⟨hmtt, ?_⟩
          unfold nmOK
          refine ⟨hvHB, fun h => hc1 h, fun h => hc2 (by omega), fun h2 h3 => ?_⟩
          by_cases hvm : w.1 < min bb e.value
          · exact hc3 h2 hvm
          · have h4 := hc2 (not_lt.mp hvm)
            have h5 : e.value ≤ w.1 := by omega
            omega


end C4

namespace C4

theorem HB_lt_MAX : HB < I32_MAX := by decide

theorem negHB_gt_MIN : I32_MIN < -HB := by decide

/-- C1: for every reachable Position and every depth budget at most 4,
`negamax` with alpha-beta pruning and the transposition table, invoked with
the full window `(Score::MIN, Score::MAX)` (and a table with no entries, as
at the start of a search), returns the same value as the unpruned, uncached
full-width `minimax` search of the same Position to the same depth. -/
theorem claim_C1 (b : Board) (d : Nat) (s : Token) (hr : Reachable b)
    (_hd : d ≤ 4) :
    (negamax d [] b I32_MIN I32_MAX s).1 = minimax d b s := by
  have hb : BoardInv b := reachable_inv hr
  have hside : sideAt (if b.ply % 2 = 0 then s else s.opponent) b = s := by
    unfold sideAt
    by_cases hp : b.ply % 2 = 0
    · rw [if_pos hp, if_pos hp]
    · rw [if_neg hp, if_neg hp]
      exact opponent_opponent s
  have htt : TTOk (d + b.ply) (if b.ply % 2 = 0 then s else s.opponent) [] := by
    intro q hq
    exact absurd hq (List.not_mem_nil q)
  have h := nm_sound (if b.ply % 2 = 0 then s else s.opponent) (d + b.ply) d []
    b I32_MIN I32_MAX hb htt rfl (Or.inl rfl) (Or.inl rfl) (by decide)
  rw [hside] at h
  have hok := h.2
  unfold nmOK at hok
  obtain ⟨hvHB, hc1, hc2, hc3⟩ := hok
  have h1 := HB_lt_MAX
  have h2 := negHB_gt_MIN
  rw [abs_le] at hvHB
  exact hc3 (by omega) (by omega)

/-- Witness for C1 at the empty board and depth 1. -/
theorem claim_C1_witness :
    Reachable Board.new ∧ 1 ≤ 4 ∧
      (negamax 1 [] Board.new I32_MIN I32_MAX Token.Player1).1 =
        minimax 1 Board.new Token.Player1 :=
  ⟨Reachable.base, by decide,
    claim_C1 Board.new 1 Token.Player1 Reachable.base (by decide)⟩

end C4
